import Mathlib

/-!
Verification of the lolcathost daemon (Go) against its specification.

Strings from the Go source are modelled as lists of characters (`Str`),
so that the line-splitting, trimming and scanning loops of
`internal/daemon/hosts.go` can be reasoned about structurally.
Whitespace is modelled as the ASCII whitespace classes used by Go's
`regexp` \s and `strings.TrimSpace` on the ASCII range.
-/

/-- Character-list model of a Go string. -/
abbrev Str := List Char

/-- Convert a Lean string literal to the model type. -/
def str (s : String) : Str := s.data

/-- ASCII whitespace, as in Go regexp \s and TrimSpace (ASCII range). -/
def isSpace (c : Char) : Bool :=
  c = ' ' || c = '\t' || c = '\n' || c = '\r' || c = '\x0b' || c = '\x0c'

/-- Model of strings.TrimSpace: drop whitespace from both ends. -/
def trimSpace (s : Str) : Str :=
  ((s.dropWhile isSpace).reverse.dropWhile isSpace).reverse

/-- Model of strings.Split(s, "\n"): split on each newline byte.
The result is always non-empty; the empty string splits to one empty part. -/
def splitNL : Str → List Str
  | [] => [[]]
  | c :: cs =>
    if c = '\n' then [] :: splitNL cs
    else
      match splitNL cs with
      | [] => [[c]]
      | h :: t => (c :: h) :: t

/-- Model of strings.Join(parts, "\n"). -/
def joinNL : List Str → Str
  | [] => []
  | [x] => x
  | x :: y :: t => x ++ '\n' :: joinNL (y :: t)

theorem splitNL_ne_nil (s : Str) : splitNL s ≠ [] := by
  induction s with
  | nil => simp [splitNL]
  | cons c cs ih =>
    simp only [splitNL]
    split
    · simp
    · split
      · simp
      · simp

theorem splitNL_no_newline (s : Str) : ∀ l ∈ splitNL s, '\n' ∉ l := by
  induction s with
  | nil => simp [splitNL]
  | cons c cs ih =>
    simp only [splitNL]
    split
    · intro l hl
      rcases List.mem_cons.mp hl with h | h
      · simp [h]
      · exact ih l h
    · rename_i hc
      cases hsp : splitNL cs with
      | nil => exact absurd hsp (splitNL_ne_nil cs)
      | cons h t =>
        intro l hl
        rcases List.mem_cons.mp hl with h1 | h1
        · subst h1
          intro hmem
          rcases List.mem_cons.mp hmem with h2 | h2
          · exact hc h2.symm
          · exact ih h (by rw [hsp]; exact List.mem_cons_self h t) h2
        · exact ih l (by rw [hsp]; exact List.mem_cons_of_mem h h1)

theorem splitNL_append_newline (a b : Str) (ha : '\n' ∉ a) :
    splitNL (a ++ '\n' :: b) = a :: splitNL b := by
  induction a with
  | nil => simp [splitNL]
  | cons c cs ih =>
    have hc : c ≠ '\n' := fun h => ha (h ▸ List.mem_cons_self c cs)
    have hcs : '\n' ∉ cs := fun h => ha (List.mem_cons_of_mem c h)
    simp only [List.cons_append, splitNL, if_neg hc]
    rw [show cs.append ('\n' :: b) = cs ++ '\n' :: b from rfl, ih hcs]

theorem splitNL_no_newline_eq (a : Str) (ha : '\n' ∉ a) : splitNL a = [a] := by
  induction a with
  | nil => rfl
  | cons c cs ih =>
    have hc : c ≠ '\n' := fun h => ha (h ▸ List.mem_cons_self c cs)
    have hcs : '\n' ∉ cs := fun h => ha (List.mem_cons_of_mem c h)
    simp only [splitNL, if_neg hc, ih hcs]

theorem splitNL_joinNL (L : List Str) (hL : L ≠ []) (h : ∀ l ∈ L, '\n' ∉ l) :
    splitNL (joinNL L) = L := by
  induction L with
  | nil => exact absurd rfl hL
  | cons x t ih =>
    cases t with
    | nil => exact splitNL_no_newline_eq x (h x (List.mem_cons_self x []))
    | cons y t2 =>
      have hx : '\n' ∉ x := h x (List.mem_cons_self _ _)
      simp only [joinNL]
      rw [splitNL_append_newline x _ hx]
      rw [ih (by simp) (fun l hl => h l (List.mem_cons_of_mem x hl))]

/-!
Hosts-file manager (internal/daemon/hosts.go).

The managed-section markers and the pure content transformations of
`removeManagedSection`, `buildManagedSection`, `WriteManagedEntries`
and `ReadManagedEntries` are embedded below.  File-system effects
(backup creation, atomic rename) are modelled by explicit data.
-/

/-- Start marker of the managed section (hosts.go markerStart). -/
def mStart : Str := str "# ========== LOLCATHOST MANAGED - DO NOT EDIT =========="

/-- End marker of the managed section (hosts.go markerEnd). -/
def mEnd : Str := str "# ========== END LOLCATHOST =========="

/-- A hosts-file entry (hosts.go HostEntry). -/
structure HostEntry where
  ip : Str
  domain : Str
  aliasName : Str
  enabled : Bool
deriving DecidableEq, Repr

/-- The keep-loop of removeManagedSection: marker lines toggle the
in-section flag and are dropped, lines inside the section are dropped,
all other lines are kept. -/
def outsideScan : List Str → Bool → List Str
  | [], _ => []
  | l :: ls, inSec =>
    if trimSpace l = mStart then outsideScan ls true
    else if trimSpace l = mEnd then outsideScan ls false
    else if inSec then outsideScan ls inSec
    else l :: outsideScan ls inSec

/-- Drop trailing lines whose TrimSpace is empty
(the trailing-blank-line loop of removeManagedSection). -/
def removeBlankSuffix (ls : List Str) : List Str :=
  (ls.reverse.dropWhile (fun l => trimSpace l = [])).reverse

/-- hosts.go removeManagedSection: split on newlines, drop managed
sections and marker lines, drop trailing blank lines, re-join. -/
def removeManagedSection (content : Str) : Str :=
  joinNL (removeBlankSuffix (outsideScan (splitNL content) false))

/-- The line written for one enabled entry:
IP TAB DOMAIN TAB "# lolcathost:" ALIAS (hosts.go buildManagedSection). -/
def entryLine (e : HostEntry) : Str :=
  e.ip ++ '\t' :: e.domain ++ '\t' :: (str "# lolcathost:" ++ e.aliasName)

/-- hosts.go buildManagedSection: start marker, one line per enabled
entry, end marker, each line newline-terminated. -/
def buildManagedSection (entries : List HostEntry) : Str :=
  mStart ++ '\n' ::
    (((entries.filter (·.enabled)).map (fun e => entryLine e ++ ['\n'])).flatten
      ++ mEnd ++ ['\n'])

/-- Model of strings.TrimRight(s, "\n"). -/
def trimRightNL (s : Str) : Str :=
  (s.reverse.dropWhile (fun c => c = '\n')).reverse

/-- The content transformation of hosts.go WriteManagedEntries:
remove the old managed section, append one blank line and the rebuilt
section.  (The surrounding backup creation and the atomic temp-file
rename are modelled separately where a claim needs them.) -/
def writeManagedEntriesContent (content : Str) (entries : List HostEntry) : Str :=
  trimRightNL (removeManagedSection content) ++ '\n' :: '\n' ::
    buildManagedSection entries

example : removeManagedSection (str "a\nb\n\n") = str "a\nb" := by decide
example :
    removeManagedSection
      (joinNL [str "x", mStart, str "1.1.1.1\td.com\t# lolcathost:a", mEnd, []])
      = str "x" := by decide

/-!
Read path (ReadManagedEntries) and its line regex
`^(\S+)\s+(\S+)\s+#\s*lolcathost:(\S+)$`.  The regex is anchored on
both ends, the field classes are disjoint from the separator classes,
so the match decomposition is unique and is computed by the
deterministic parser below: first maximal non-space run, mandatory
whitespace, second maximal non-space run, mandatory whitespace, the
literal hash, optional whitespace, the literal "lolcathost:", and a
final non-empty non-space run.
-/

/-- Parse one trimmed line against the entry regex; returns
(ip, domain, alias) on a match. -/
def parseEntry (t : Str) : Option (Str × Str × Str) :=
  let f1 := t.takeWhile (fun c => !isSpace c)
  let r1 := t.dropWhile (fun c => !isSpace c)
  let w1 := r1.takeWhile isSpace
  let r2 := r1.dropWhile isSpace
  let f2 := r2.takeWhile (fun c => !isSpace c)
  let r3 := r2.dropWhile (fun c => !isSpace c)
  let w2 := r3.takeWhile isSpace
  let r4 := r3.dropWhile isSpace
  if r4.head? = some '#' then
    let r6 := r4.tail.dropWhile isSpace
    if (str "lolcathost:").isPrefixOf r6 then
      let f3 := r6.drop 11
      if f1 ≠ [] ∧ w1 ≠ [] ∧ f2 ≠ [] ∧ w2 ≠ [] ∧ f3 ≠ [] ∧
          (∀ c ∈ f3, !isSpace c) then
        some (f1, f2, f3)
      else none
    else none
  else none

/-- The scanning loop of ReadManagedEntries over trimmed lines:
marker lines toggle the flag; inside the section, non-empty lines not
starting with a hash are matched against the entry regex. -/
def readScan : List Str → Bool → List (Str × Str × Str)
  | [], _ => []
  | l :: ls, inSec =>
    let t := trimSpace l
    if t = mStart then readScan ls true
    else if t = mEnd then readScan ls false
    else if inSec ∧ ¬ ((str "#").isPrefixOf t) ∧ t ≠ [] then
      match parseEntry t with
      | some e => e :: readScan ls inSec
      | none => readScan ls inSec
    else readScan ls inSec

/-- ReadManagedEntries as a function of the file content: returns the
(ip, domain, alias) triples parsed inside the managed section.  (The Go
function wraps each triple in a HostEntry with Enabled=true; the triple
list carries the same information.) -/
def readManagedEntries (content : Str) : List (Str × Str × Str) :=
  readScan (splitNL content) false

example :
    readManagedEntries
      (joinNL [str "127.0.0.1\tlocalhost", mStart,
               str "127.0.0.1\texample.com\t# lolcathost:example-local",
               str "192.168.1.1\tapi.example.com\t# lolcathost:api-local",
               mEnd, []])
      = [(str "127.0.0.1", str "example.com", str "example-local"),
         (str "192.168.1.1", str "api.example.com", str "api-local")] := by
  decide

/-!
Helper lemmas about takeWhile, dropWhile and the scanning loops.
-/

theorem takeWhile_app_stop {p : Char → Bool} (a : Str) (x : Char) (r : Str)
    (ha : ∀ c ∈ a, p c) (hx : p x = false) :
    List.takeWhile p (a ++ x :: r) = a := by
  induction a with
  | nil => simp [List.takeWhile, hx]
  | cons c cs ih =>
    have hc : p c := ha c (List.mem_cons_self _ _)
    simp only [List.cons_append, List.takeWhile, hc]
    rw [show cs.append (x :: r) = cs ++ x :: r from rfl,
      ih (fun d hd => ha d (List.mem_cons_of_mem c hd))]

theorem dropWhile_app_stop {p : Char → Bool} (a : Str) (x : Char) (r : Str)
    (ha : ∀ c ∈ a, p c) (hx : p x = false) :
    List.dropWhile p (a ++ x :: r) = x :: r := by
  induction a with
  | nil => simp [List.dropWhile, hx]
  | cons c cs ih =>
    have hc : p c := ha c (List.mem_cons_self _ _)
    simp only [List.cons_append, List.dropWhile, hc]
    exact ih (fun d hd => ha d (List.mem_cons_of_mem c hd))

theorem dropWhile_head_false {p : Char → Bool} (l : Str) (x : Char) (xs : Str)
    (h : List.dropWhile p l = x :: xs) : p x = false := by
  induction l with
  | nil => simp [List.dropWhile] at h
  | cons c cs ih =>
    by_cases hc : p c
    · exact ih (by simpa [List.dropWhile, hc] using h)
    · simp only [List.dropWhile, hc] at h
      have hcx : c = x := (List.cons.injEq c cs x xs ▸ h).1
      rw [← hcx]
      simpa using hc

theorem mem_dropWhile_of_not {p : Char → Bool} (l : Str) (c : Char)
    (hc : c ∈ l) (hp : p c = false) : c ∈ List.dropWhile p l := by
  induction l with
  | nil => simp at hc
  | cons d ds ih =>
    by_cases hd : p d
    · rcases List.mem_cons.mp hc with h | h
      · subst h; simp [hd] at hp
      · simpa [List.dropWhile, hd] using ih h
    · simpa [List.dropWhile, hd] using hc

theorem mem_trimSpace_of_not (s : Str) (c : Char)
    (hc : c ∈ s) (hp : isSpace c = false) : c ∈ trimSpace s := by
  unfold trimSpace
  have h1 : c ∈ List.dropWhile isSpace s := mem_dropWhile_of_not s c hc hp
  have h2 : c ∈ (List.dropWhile isSpace s).reverse := List.mem_reverse.mpr h1
  have h3 : c ∈ List.dropWhile isSpace (List.dropWhile isSpace s).reverse :=
    mem_dropWhile_of_not _ c h2 hp
  exact List.mem_reverse.mpr h3

/-- A trimmed line containing a colon is not one of the markers
(the markers contain no colon). -/
theorem colon_line_ne_markers (t : Str) (h : ':' ∈ t) :
    t ≠ mStart ∧ t ≠ mEnd := by
  constructor
  · intro he; subst he; revert h; decide
  · intro he; subst he; revert h; decide

/-- A line kept as blank-suffix candidate: trimSpace of a non-space head. -/
theorem trimSpace_of_ends (s : Str) (hne : s ≠ [])
    (hh : ∀ h, s.head? = some h → isSpace h = false)
    (hl : ∀ h, s.getLast? = some h → isSpace h = false) :
    trimSpace s = s := by
  cases s with
  | nil => exact absurd rfl hne
  | cons c cs =>
    have hc : isSpace c = false := hh c rfl
    unfold trimSpace
    rw [List.dropWhile_cons_of_neg (by simp [hc])]
    rcases List.eq_nil_or_concat (c :: cs) with h | ⟨as, b, hab⟩
    · simp at h
    · rw [hab]
      have hb : isSpace b = false := by
        apply hl
        rw [hab]
        simp [List.concat_eq_append]
      rw [List.concat_eq_append, List.reverse_append]
      simp only [List.reverse_cons, List.reverse_nil, List.nil_append,
        List.cons_append]
      rw [List.dropWhile_cons_of_neg (by simp [hb])]
      simp

theorem outsideScan_mem (ls : List Str) (b : Bool) :
    ∀ l ∈ outsideScan ls b, l ∈ ls := by
  induction ls generalizing b with
  | nil => simp [outsideScan]
  | cons x xs ih =>
    intro l hl
    simp only [outsideScan] at hl
    split at hl
    · exact List.mem_cons_of_mem x (ih true l hl)
    · split at hl
      · exact List.mem_cons_of_mem x (ih false l hl)
      · split at hl
        · exact List.mem_cons_of_mem x (ih b l hl)
        · rcases List.mem_cons.mp hl with h | h
          · exact h ▸ List.mem_cons_self x xs
          · exact List.mem_cons_of_mem x (ih b l h)

theorem outsideScan_nonmarker (ls : List Str) (b : Bool) :
    ∀ l ∈ outsideScan ls b, trimSpace l ≠ mStart ∧ trimSpace l ≠ mEnd := by
  induction ls generalizing b with
  | nil => simp [outsideScan]
  | cons x xs ih =>
    intro l hl
    simp only [outsideScan] at hl
    split at hl
    · exact ih true l hl
    · split at hl
      · exact ih false l hl
      · split at hl
        · exact ih b l hl
        · rcases List.mem_cons.mp hl with h | h
          · subst h
            exact ⟨by assumption, by assumption⟩
          · exact ih b l h

theorem removeBlankSuffix_mem (ls : List Str) :
    ∀ l ∈ removeBlankSuffix ls, l ∈ ls := by
  intro l hl
  unfold removeBlankSuffix at hl
  have h1 := List.mem_reverse.mp hl
  have h2 := List.dropWhile_sublist
    (l := ls.reverse) (p := fun l => trimSpace l = [])
  exact List.mem_reverse.mp (h2.mem h1)

/-- Lines kept with the flag off pass through the scan unchanged. -/
theorem outsideScan_append_keep (K rest : List Str)
    (hK : ∀ l ∈ K, trimSpace l ≠ mStart ∧ trimSpace l ≠ mEnd) :
    outsideScan (K ++ rest) false = K ++ outsideScan rest false := by
  induction K with
  | nil => simp
  | cons x xs ih =>
    have hx := hK x (List.mem_cons_self _ _)
    simp only [List.cons_append, outsideScan, if_neg hx.1, if_neg hx.2,
      if_neg (Bool.false_ne_true)]
    rw [show xs.append rest = xs ++ rest from rfl,
      ih (fun l hl => hK l (List.mem_cons_of_mem x hl))]

/-- Non-marker lines inside the section are all dropped by the scan. -/
theorem outsideScan_append_drop (E rest : List Str)
    (hE : ∀ l ∈ E, trimSpace l ≠ mStart ∧ trimSpace l ≠ mEnd) :
    outsideScan (E ++ rest) true = outsideScan rest true := by
  induction E with
  | nil => simp
  | cons x xs ih =>
    have hx := hE x (List.mem_cons_self _ _)
    simp only [List.cons_append, outsideScan, if_neg hx.1, if_neg hx.2, if_pos rfl]
    rw [show xs.append rest = xs ++ rest from rfl]
    exact ih (fun l hl => hE l (List.mem_cons_of_mem x hl))

theorem dropWhile_append_all {α : Type} {p : α → Bool} (a b : List α)
    (ha : ∀ x ∈ a, p x) : List.dropWhile p (a ++ b) = List.dropWhile p b := by
  induction a with
  | nil => simp
  | cons c cs ih =>
    have hc : p c := ha c (List.mem_cons_self _ _)
    simp only [List.cons_append, List.dropWhile, hc]
    exact ih (fun d hd => ha d (List.mem_cons_of_mem c hd))

theorem dropWhile_eq_nil_of_all {α : Type} {p : α → Bool} (a : List α)
    (ha : ∀ x ∈ a, p x) : List.dropWhile p a = [] := by
  have h := dropWhile_append_all (p := p) a [] ha
  simpa using h

theorem dropWhile_head_false_gen {α : Type} {p : α → Bool} (l : List α)
    (x : α) (xs : List α) (h : List.dropWhile p l = x :: xs) : p x = false := by
  induction l with
  | nil => simp [List.dropWhile] at h
  | cons c cs ih =>
    by_cases hc : p c
    · exact ih (by simpa [List.dropWhile, hc] using h)
    · simp only [List.dropWhile, hc] at h
      have hcx : c = x := (List.cons.injEq c cs x xs ▸ h).1
      rw [← hcx]
      simpa using hc

theorem removeBlankSuffix_append_blank (A B : List Str)
    (hB : ∀ l ∈ B, trimSpace l = []) :
    removeBlankSuffix (A ++ B) = removeBlankSuffix A := by
  unfold removeBlankSuffix
  rw [List.reverse_append,
    dropWhile_append_all _ _ (fun x hx => by
      simp only [decide_eq_true_eq]
      exact hB x (List.mem_reverse.mp hx))]

theorem removeBlankSuffix_idem (ls : List Str) :
    removeBlankSuffix (removeBlankSuffix ls) = removeBlankSuffix ls := by
  unfold removeBlankSuffix
  rw [List.reverse_reverse]
  cases h : List.dropWhile (fun l => decide (trimSpace l = [])) ls.reverse with
  | nil => simp
  | cons x xs =>
    have hx := dropWhile_head_false_gen _ _ _ h
    simp [List.dropWhile, hx]

theorem removeBlankSuffix_last_nonblank (ls A : List Str) (l : Str)
    (h : removeBlankSuffix ls = A ++ [l]) : trimSpace l ≠ [] := by
  unfold removeBlankSuffix at h
  have h2 : List.dropWhile (fun l => decide (trimSpace l = [])) ls.reverse
      = l :: A.reverse := by
    have := congrArg List.reverse h
    simpa using this
  have := dropWhile_head_false_gen _ _ _ h2
  simpa using this

theorem joinNL_cons_of_ne (x : Str) (rest : List Str) (h : rest ≠ []) :
    joinNL (x :: rest) = x ++ '\n' :: joinNL rest := by
  cases rest with
  | nil => exact absurd rfl h
  | cons y t => rfl

theorem joinNL_concat_rev (as : List Str) (l : Str) (hl : l ≠ [])
    (hnl : ∀ m ∈ as ++ [l], '\n' ∉ m) :
    ∃ c cs, (joinNL (as ++ [l])).reverse = c :: cs ∧ c ≠ '\n' := by
  induction as with
  | nil =>
    cases hrev : l.reverse with
    | nil => exact absurd (by simpa using congrArg List.reverse hrev) hl
    | cons c cs =>
      refine ⟨c, cs, by simpa [joinNL] using hrev, ?_⟩
      intro hc
      have hcl : c ∈ l := List.mem_reverse.mp (hrev ▸ List.mem_cons_self c cs)
      exact hnl l (List.mem_cons_self l []) (hc ▸ hcl)
  | cons a as2 ih =>
    obtain ⟨c, cs, hrec, hc⟩ := ih (fun m hm => hnl m (List.mem_cons_of_mem a hm))
    refine ⟨c, cs ++ '\n' :: a.reverse, ?_, hc⟩
    rw [show (a :: as2) ++ [l] = a :: (as2 ++ [l]) from rfl,
      joinNL_cons_of_ne a _ (by simp), List.reverse_append]
    simp [hrec]

theorem trimRightNL_id (s : Str) (c : Char) (cs : Str)
    (h : s.reverse = c :: cs) (hc : c ≠ '\n') : trimRightNL s = s := by
  unfold trimRightNL
  rw [h, List.dropWhile_cons_of_neg (by simp [hc]), ← h, List.reverse_reverse]

/-!
Entry lines and the decomposition of a written hosts file.
-/

/-- No field of the entry contains a newline. -/
def entryNoNL (e : HostEntry) : Prop :=
  '\n' ∉ e.ip ∧ '\n' ∉ e.domain ∧ '\n' ∉ e.aliasName

instance (e : HostEntry) : Decidable (entryNoNL e) := by
  unfold entryNoNL; infer_instance

/-- The lines the managed section contains, one per enabled entry. -/
def entryLinesOf (E : List HostEntry) : List Str :=
  (E.filter (·.enabled)).map entryLine

/-- The normalized outside-lines of a content: what removeManagedSection
keeps, before re-joining. -/
def outsideNorm (c : Str) : List Str :=
  removeBlankSuffix (outsideScan (splitNL c) false)

theorem removeManagedSection_eq_join (c : Str) :
    removeManagedSection c = joinNL (outsideNorm c) := rfl

theorem entryLine_no_newline (e : HostEntry) (h : entryNoNL e) :
    '\n' ∉ entryLine e := by
  obtain ⟨h1, h2, h3⟩ := h
  intro hmem
  simp only [entryLine, List.mem_append, List.mem_cons] at hmem
  have hx : ¬ '\n' ∈ str "# lolcathost:" := by decide
  have hy : ('\n' : Char) ≠ '\t' := by decide
  tauto

theorem colon_mem_entryLine (e : HostEntry) : ':' ∈ entryLine e := by
  simp only [entryLine, List.mem_append, List.mem_cons]
  have hx : ':' ∈ str "# lolcathost:" := by decide
  tauto

theorem entryLine_trim_ne_markers (e : HostEntry) :
    trimSpace (entryLine e) ≠ mStart ∧ trimSpace (entryLine e) ≠ mEnd :=
  colon_line_ne_markers _
    (mem_trimSpace_of_not _ ':' (colon_mem_entryLine e) (by decide))

theorem splitNL_joinNL_append (K : List Str) (rest : Str) (hne : K ≠ [])
    (h : ∀ l ∈ K, '\n' ∉ l) :
    splitNL (joinNL K ++ '\n' :: rest) = K ++ splitNL rest := by
  induction K with
  | nil => exact absurd rfl hne
  | cons x t ih =>
    cases t with
    | nil =>
      simpa [joinNL] using
        splitNL_append_newline x rest (h x (List.mem_cons_self _ _))
    | cons y t2 =>
      rw [joinNL_cons_of_ne x _ (by simp), List.append_assoc]
      rw [show ('\n' :: joinNL (y :: t2)) ++ '\n' :: rest
            = '\n' :: (joinNL (y :: t2) ++ '\n' :: rest) from rfl]
      rw [splitNL_append_newline x _ (h x (List.mem_cons_self _ _))]
      rw [ih (by simp) (fun l hl => h l (List.mem_cons_of_mem x hl))]
      rfl

theorem splitNL_sectionAux (F : List HostEntry) (hF : ∀ e ∈ F, entryNoNL e) :
    splitNL ((F.map (fun e => entryLine e ++ ['\n'])).flatten ++ (mEnd ++ ['\n']))
      = F.map entryLine ++ [mEnd, []] := by
  induction F with
  | nil =>
    simp only [List.map_nil, List.flatten_nil, List.nil_append]
    show splitNL (mEnd ++ '\n' :: []) = [mEnd, []]
    rw [splitNL_append_newline mEnd [] (by decide)]
    rfl
  | cons e es ih =>
    simp only [List.map_cons, List.flatten_cons, List.append_assoc]
    show splitNL (entryLine e ++ '\n' ::
        ((es.map (fun x => entryLine x ++ ['\n'])).flatten ++ (mEnd ++ ['\n'])))
      = entryLine e :: List.map entryLine es ++ [mEnd, []]
    rw [splitNL_append_newline _ _
      (entryLine_no_newline e (hF e (List.mem_cons_self _ _)))]
    rw [ih (fun x hx => hF x (List.mem_cons_of_mem e hx))]
    rfl

theorem splitNL_section (E : List HostEntry) (hE : ∀ e ∈ E, entryNoNL e) :
    splitNL (buildManagedSection E) = mStart :: (entryLinesOf E ++ [mEnd, []]) := by
  unfold buildManagedSection
  rw [splitNL_append_newline mStart _ (by decide)]
  refine congrArg (List.cons mStart ·) ?_
  unfold entryLinesOf
  rw [List.append_assoc]
  exact splitNL_sectionAux (E.filter (·.enabled))
    (fun e he => hE e (List.mem_of_mem_filter he))

theorem outsideNorm_no_newline (C : Str) : ∀ l ∈ outsideNorm C, '\n' ∉ l :=
  fun l hl =>
    splitNL_no_newline C l
      (outsideScan_mem _ _ l (removeBlankSuffix_mem _ l hl))

theorem outsideNorm_nonmarker (C : Str) :
    ∀ l ∈ outsideNorm C, trimSpace l ≠ mStart ∧ trimSpace l ≠ mEnd :=
  fun l hl => outsideScan_nonmarker _ _ l (removeBlankSuffix_mem _ l hl)

theorem trimSpace_nil : trimSpace [] = [] := rfl

theorem trimSpace_mStart : trimSpace mStart = mStart := by decide

theorem trimSpace_mEnd : trimSpace mEnd = mEnd := by decide

theorem outsideScan_cons_keep (x : Str) (ls : List Str)
    (h1 : trimSpace x ≠ mStart) (h2 : trimSpace x ≠ mEnd) :
    outsideScan (x :: ls) false = x :: outsideScan ls false := by
  simp [outsideScan, h1, h2]

theorem outsideScan_cons_start (x : Str) (ls : List Str) (b : Bool)
    (h : trimSpace x = mStart) :
    outsideScan (x :: ls) b = outsideScan ls true := by
  simp [outsideScan, h]

theorem outsideScan_cons_end (x : Str) (ls : List Str) (b : Bool)
    (h : trimSpace x = mEnd) :
    outsideScan (x :: ls) b = outsideScan ls false := by
  rw [show outsideScan (x :: ls) b
        = if trimSpace x = mStart then outsideScan ls true
          else if trimSpace x = mEnd then outsideScan ls false
          else if b then outsideScan ls b else x :: outsideScan ls b from rfl]
  rw [h, if_neg (show ¬ (mEnd = mStart) by decide), if_pos rfl]

/-- Decomposition of a freshly written hosts file into lines: the
normalized outside lines (or a single empty line when there are none),
one blank separator line, the start marker, the entry lines, the end
marker, and the final empty line from the trailing newline. -/
theorem splitNL_write (C : Str) (E : List HostEntry) (hE : ∀ e ∈ E, entryNoNL e) :
    splitNL (writeManagedEntriesContent C E)
      = (if outsideNorm C = [] then [[]] else outsideNorm C)
        ++ [] :: mStart :: (entryLinesOf E ++ [mEnd, []]) := by
  unfold writeManagedEntriesContent
  rw [removeManagedSection_eq_join]
  rcases List.eq_nil_or_concat (outsideNorm C) with hK | ⟨as, l, hK⟩
  · rw [hK]
    show splitNL ('\n' :: '\n' :: buildManagedSection E) = _
    rw [show splitNL ('\n' :: '\n' :: buildManagedSection E)
          = [] :: [] :: splitNL (buildManagedSection E) from by simp [splitNL]]
    rw [splitNL_section E hE]
    simp
  · rw [List.concat_eq_append] at hK
    have hlast : trimSpace l ≠ [] := removeBlankSuffix_last_nonblank _ _ _ hK
    have hlne : l ≠ [] := fun h => hlast (by rw [h]; rfl)
    have hnl : ∀ m ∈ outsideNorm C, '\n' ∉ m := outsideNorm_no_newline C
    obtain ⟨c, cs, hrev, hc⟩ :=
      joinNL_concat_rev as l hlne (fun m hm => hnl m (hK ▸ hm))
    rw [hK, trimRightNL_id _ c cs hrev hc]
    rw [show joinNL (as ++ [l]) ++ '\n' :: '\n' :: buildManagedSection E
          = joinNL (as ++ [l]) ++ '\n' :: ('\n' :: buildManagedSection E)
        from rfl]
    rw [splitNL_joinNL_append _ _ (by simp) (fun m hm => hnl m (hK ▸ hm))]
    rw [show splitNL ('\n' :: buildManagedSection E)
          = [] :: splitNL (buildManagedSection E) from by simp [splitNL]]
    rw [splitNL_section E hE]
    rw [if_neg (by simp [hK])]

/-- One reconcile preserves the normalized outside lines. -/
theorem outsideNorm_write (C : Str) (E : List HostEntry)
    (hE : ∀ e ∈ E, entryNoNL e) :
    outsideNorm (writeManagedEntriesContent C E) = outsideNorm C := by
  have hEL : ∀ m ∈ entryLinesOf E,
      trimSpace m ≠ mStart ∧ trimSpace m ≠ mEnd := by
    intro m hm
    obtain ⟨e, _, hmap⟩ := List.mem_map.mp hm
    exact hmap ▸ entryLine_trim_ne_markers e
  have htail : outsideScan ([] :: mStart :: (entryLinesOf E ++ [mEnd, []])) false
      = [[], []] := by
    rw [outsideScan_cons_keep _ _ (by decide) (by decide)]
    rw [outsideScan_cons_start _ _ _ trimSpace_mStart]
    rw [outsideScan_append_drop _ _ hEL]
    rw [outsideScan_cons_end _ _ _ trimSpace_mEnd]
    rw [outsideScan_cons_keep _ _ (by decide) (by decide)]
    rfl
  show removeBlankSuffix (outsideScan (splitNL (writeManagedEntriesContent C E)) false)
      = outsideNorm C
  rw [splitNL_write C E hE]
  split
  · rename_i hK
    rw [show ([[]] : List Str) ++ [] :: mStart :: (entryLinesOf E ++ [mEnd, []])
          = [[]] ++ ([] :: mStart :: (entryLinesOf E ++ [mEnd, []])) from rfl]
    rw [outsideScan_append_keep _ _ (by
      intro m hm
      have hm2 : m = ([] : Str) := by simpa using hm
      subst hm2
      exact ⟨by decide, by decide⟩)]
    rw [htail, hK]
    decide
  · rw [outsideScan_append_keep _ _ (outsideNorm_nonmarker C)]
    rw [htail]
    rw [removeBlankSuffix_append_blank _ _ (by
      intro m hm
      have hm2 : m = ([] : Str) := by
        rcases List.mem_cons.mp hm with h | h
        · exact h
        · simpa using h
      subst hm2
      rfl)]
    exact removeBlankSuffix_idem _

theorem removeManagedSection_write (C : Str) (E : List HostEntry)
    (hE : ∀ e ∈ E, entryNoNL e) :
    removeManagedSection (writeManagedEntriesContent C E)
      = removeManagedSection C := by
  rw [removeManagedSection_eq_join, removeManagedSection_eq_join,
    outsideNorm_write C E hE]

theorem write_idem (C : Str) (E : List HostEntry)
    (hE : ∀ e ∈ E, entryNoNL e) :
    writeManagedEntriesContent (writeManagedEntriesContent C E) E
      = writeManagedEntriesContent C E := by
  conv_lhs =>
    rw [show writeManagedEntriesContent (writeManagedEntriesContent C E) E
          = trimRightNL (removeManagedSection (writeManagedEntriesContent C E))
            ++ '\n' :: '\n' :: buildManagedSection E from rfl]
  rw [removeManagedSection_write C E hE]
  rfl

/-- A finite sequence of reconciles, as the fold of the write-path
content transformation. -/
def reconcileFold (C : Str) (Es : List (List HostEntry)) : Str :=
  Es.foldl writeManagedEntriesContent C

theorem outsideNorm_reconcileFold (C : Str) (Es : List (List HostEntry))
    (h : ∀ E ∈ Es, ∀ e ∈ E, entryNoNL e) :
    outsideNorm (reconcileFold C Es) = outsideNorm C := by
  induction Es generalizing C with
  | nil => rfl
  | cons E Es2 ih =>
    show outsideNorm (reconcileFold (writeManagedEntriesContent C E) Es2)
        = outsideNorm C
    rw [ih _ (fun F hF => h F (List.mem_cons_of_mem E hF)),
      outsideNorm_write C E (h E (List.mem_cons_self _ _))]

/-!
Backups (hosts.go CreateBackup): before each write, the pre-write
content is snapshotted to "hosts.TIMESTAMP.bak" in the backup
directory.  A reconcile run is modelled as the pair of the resulting
content and the backup (name, snapshot) records it appends.
-/

/-- Backup file name hosts.TIMESTAMP.bak (hosts.go CreateBackup). -/
def backupFileName (ts : Str) : Str := str "hosts." ++ ts ++ str ".bak"

/-- One reconcile: snapshot the current content as a backup, then
rewrite the managed section. -/
def reconcileStep (st : Str × List (Str × Str)) (ts : Str)
    (E : List HostEntry) : Str × List (Str × Str) :=
  (writeManagedEntriesContent st.1 E, st.2 ++ [(backupFileName ts, st.1)])

/-!
Round trip: reading back a freshly written managed section.
-/

/-- A well-formed field: non-empty and free of whitespace. -/
def fieldOK (s : Str) : Prop := s ≠ [] ∧ ∀ c ∈ s, isSpace c = false

instance (s : Str) : Decidable (fieldOK s) := by unfold fieldOK; infer_instance

/-- An entry whose written line is parsed back verbatim: all three
fields well-formed and the IP not beginning with the comment hash. -/
def entryOK (e : HostEntry) : Prop :=
  fieldOK e.ip ∧ fieldOK e.domain ∧ fieldOK e.aliasName ∧
    ∀ c, e.ip.head? = some c → c ≠ '#'

instance (e : HostEntry) : Decidable (entryOK e) := by
  unfold entryOK; infer_instance

theorem isPrefixOf_append_self {α : Type} [DecidableEq α] (a b : List α) :
    a.isPrefixOf (a ++ b) = true := by
  induction a with
  | nil => simp [List.isPrefixOf]
  | cons x xs ih => simp [List.isPrefixOf, ih]

theorem entryLine_assoc (e : HostEntry) :
    entryLine e
      = e.ip ++ '\t' :: (e.domain ++ '\t' :: (str "# lolcathost:" ++ e.aliasName)) := by
  simp [entryLine]

theorem parseEntry_entryLine (e : HostEntry) (h : entryOK e) :
    parseEntry (entryLine e) = some (e.ip, e.domain, e.aliasName) := by
  obtain ⟨⟨hip1, hip2⟩, ⟨hd1, hd2⟩, ⟨ha1, ha2⟩, _⟩ := h
  obtain ⟨d, ds, hdom⟩ : ∃ d ds, e.domain = d :: ds := by
    cases hdm : e.domain with
    | nil => exact absurd hdm hd1
    | cons d ds => exact ⟨d, ds, rfl⟩
  have hdns : isSpace d = false := hd2 d (hdom ▸ List.mem_cons_self _ _)
  have hipP : ∀ c ∈ e.ip, (fun c => !isSpace c) c = true := by
    intro c hc; simp [hip2 c hc]
  have hdomP : ∀ c ∈ e.domain, (fun c => !isSpace c) c = true := by
    intro c hc; simp [hd2 c hc]
  rw [entryLine_assoc]
  unfold parseEntry
  simp only
  rw [takeWhile_app_stop _ _ _ hipP (by decide),
    dropWhile_app_stop _ _ _ hipP (by decide)]
  simp only [List.takeWhile_cons_of_pos (show isSpace '\t' = true by decide),
    List.dropWhile_cons_of_pos (show isSpace '\t' = true by decide)]
  rw [show List.dropWhile isSpace
        (e.domain ++ '\t' :: (str "# lolcathost:" ++ e.aliasName))
      = e.domain ++ '\t' :: (str "# lolcathost:" ++ e.aliasName) from by
    rw [hdom]
    exact List.dropWhile_cons_of_neg (by simp [hdns])]
  rw [takeWhile_app_stop _ _ _ hdomP (by decide),
    dropWhile_app_stop _ _ _ hdomP (by decide)]
  simp only [List.takeWhile_cons_of_pos (show isSpace '\t' = true by decide),
    List.dropWhile_cons_of_pos (show isSpace '\t' = true by decide)]
  rw [show List.dropWhile isSpace (str "# lolcathost:" ++ e.aliasName)
        = '#' :: (' ' :: (str "lolcathost:" ++ e.aliasName)) from by
    rw [show str "# lolcathost:" ++ e.aliasName
          = '#' :: (' ' :: (str "lolcathost:" ++ e.aliasName)) from rfl]
    exact List.dropWhile_cons_of_neg (by decide)]
  rw [if_pos (show ('#' :: ' ' :: (str "lolcathost:" ++ e.aliasName)).head?
        = some '#' from rfl)]
  simp only [List.tail_cons]
  rw [show List.dropWhile isSpace (' ' :: (str "lolcathost:" ++ e.aliasName))
        = str "lolcathost:" ++ e.aliasName from by
    rw [List.dropWhile_cons_of_pos (by decide)]
    rw [show str "lolcathost:" ++ e.aliasName
          = 'l' :: (str "olcathost:" ++ e.aliasName) from rfl]
    exact List.dropWhile_cons_of_neg (by decide)]
  rw [if_pos (by rw [isPrefixOf_append_self])]
  rw [show (11 : Nat) = (str "lolcathost:").length from rfl, List.drop_left]
  rw [if_pos ?cond]
  case cond =>
    refine ⟨hip1, by simp, hd1, by simp, ha1, ?_⟩
    intro c hc
    simp [ha2 c hc]

theorem readScan_cons_skip (x : Str) (ls : List Str)
    (h1 : trimSpace x ≠ mStart) (h2 : trimSpace x ≠ mEnd) :
    readScan (x :: ls) false = readScan ls false := by
  simp [readScan, h1, h2]

theorem readScan_append_skip (A rest : List Str)
    (hA : ∀ l ∈ A, trimSpace l ≠ mStart ∧ trimSpace l ≠ mEnd) :
    readScan (A ++ rest) false = readScan rest false := by
  induction A with
  | nil => simp
  | cons x xs ih =>
    have hx := hA x (List.mem_cons_self _ _)
    rw [show (x :: xs) ++ rest = x :: (xs ++ rest) from rfl,
      readScan_cons_skip _ _ hx.1 hx.2]
    exact ih (fun l hl => hA l (List.mem_cons_of_mem x hl))

theorem readScan_cons_start (x : Str) (ls : List Str) (b : Bool)
    (h : trimSpace x = mStart) :
    readScan (x :: ls) b = readScan ls true := by
  simp [readScan, h]

theorem readScan_cons_end (x : Str) (ls : List Str) (b : Bool)
    (h : trimSpace x = mEnd) :
    readScan (x :: ls) b = readScan ls false := by
  have h1 : (mEnd = mStart) = False := by
    simp only [eq_iff_iff, iff_false]
    decide
  simp [readScan, h, h1]

theorem entryLine_trimSpace_id (e : HostEntry) (h : entryOK e) :
    trimSpace (entryLine e) = entryLine e := by
  obtain ⟨⟨hip1, hip2⟩, _, ⟨ha1, ha2⟩, _⟩ := h
  obtain ⟨i, is2, hip⟩ : ∃ i is2, e.ip = i :: is2 := by
    cases hm : e.ip with
    | nil => exact absurd hm hip1
    | cons i is2 => exact ⟨i, is2, rfl⟩
  apply trimSpace_of_ends
  · rw [entryLine_assoc, hip]
    simp
  · intro c hc
    rw [entryLine_assoc, hip] at hc
    simp only [List.cons_append, List.head?_cons, Option.some.injEq] at hc
    subst hc
    exact hip2 _ (hip ▸ List.mem_cons_self _ _)
  · intro c hc
    have hform : entryLine e
        = (e.ip ++ '\t' :: (e.domain ++ '\t' :: str "# lolcathost:"))
          ++ e.aliasName := by
      rw [entryLine_assoc]
      simp
    rw [hform, List.getLast?_append_of_ne_nil _ ha1] at hc
    exact ha2 c (List.mem_of_mem_getLast? hc)

theorem hash_not_prefixOf_entryLine (e : HostEntry) (h : entryOK e) :
    ((str "#").isPrefixOf (entryLine e)) = false := by
  obtain ⟨⟨hip1, _⟩, _, _, hhash⟩ := h
  obtain ⟨i, is2, hip⟩ : ∃ i is2, e.ip = i :: is2 := by
    cases hm : e.ip with
    | nil => exact absurd hm hip1
    | cons i is2 => exact ⟨i, is2, rfl⟩
  have hi : i ≠ '#' := hhash i (by rw [hip]; rfl)
  rw [entryLine_assoc, hip]
  show List.isPrefixOf ['#'] (i :: (is2 ++ _)) = false
  simp [List.isPrefixOf, hi, Ne.symm hi]

theorem readScan_cons_entry (e : HostEntry) (ls : List Str) (h : entryOK e) :
    readScan (entryLine e :: ls) true
      = (e.ip, e.domain, e.aliasName) :: readScan ls true := by
  have ht := entryLine_trimSpace_id e h
  have hm := entryLine_trim_ne_markers e
  have hp := hash_not_prefixOf_entryLine e h
  have hne : entryLine e ≠ [] := by
    intro hx
    exact absurd (hx ▸ colon_mem_entryLine e) (by simp)
  have hm1 : entryLine e ≠ mStart := fun hx => hm.1 (ht.trans hx)
  have hm2 : entryLine e ≠ mEnd := fun hx => hm.2 (ht.trans hx)
  simp only [readScan, ht]
  rw [if_neg hm1, if_neg hm2, if_pos ⟨trivial, by simp [hp], hne⟩,
    parseEntry_entryLine e h]

theorem readScan_entries (F : List HostEntry) (rest : List Str)
    (hF : ∀ e ∈ F, entryOK e) :
    readScan (F.map entryLine ++ rest) true
      = F.map (fun e => (e.ip, e.domain, e.aliasName)) ++ readScan rest true := by
  induction F with
  | nil => simp
  | cons e es ih =>
    rw [show (e :: es).map entryLine ++ rest
          = entryLine e :: (es.map entryLine ++ rest) from rfl]
    rw [readScan_cons_entry e _ (hF e (List.mem_cons_self _ _))]
    rw [ih (fun x hx => hF x (List.mem_cons_of_mem e hx))]
    rfl

theorem entryOK_noNL (e : HostEntry) (h : entryOK e) : entryNoNL e := by
  obtain ⟨⟨_, h1⟩, ⟨_, h2⟩, ⟨_, h3⟩, _⟩ := h
  refine ⟨fun hx => ?_, fun hx => ?_, fun hx => ?_⟩
  · exact absurd (h1 _ hx) (by decide)
  · exact absurd (h2 _ hx) (by decide)
  · exact absurd (h3 _ hx) (by decide)

/-- Round trip: writing entries and reading the managed region back
yields exactly the (ip, domain, alias) triples of the enabled entries. -/
theorem readManagedEntries_write (C : Str) (E : List HostEntry)
    (hE : ∀ e ∈ E, entryOK e) :
    readManagedEntries (writeManagedEntriesContent C E)
      = (E.filter (·.enabled)).map (fun e => (e.ip, e.domain, e.aliasName)) := by
  have hNL : ∀ e ∈ E, entryNoNL e := fun e he => entryOK_noNL e (hE e he)
  unfold readManagedEntries
  rw [splitNL_write C E hNL]
  have htail : readScan ([] :: mStart :: (entryLinesOf E ++ [mEnd, []])) false
      = (E.filter (·.enabled)).map (fun e => (e.ip, e.domain, e.aliasName)) := by
    rw [readScan_cons_skip _ _ (by decide) (by decide)]
    rw [readScan_cons_start _ _ _ trimSpace_mStart]
    unfold entryLinesOf
    rw [readScan_entries _ _ (fun e he => hE e (List.mem_of_mem_filter he))]
    rw [readScan_cons_end _ _ _ trimSpace_mEnd]
    rw [readScan_cons_skip _ _ (by decide) (by decide)]
    simp [readScan]
  split
  · rw [show ([[]] : List Str) ++ [] :: mStart :: (entryLinesOf E ++ [mEnd, []])
          = [[]] ++ ([] :: mStart :: (entryLinesOf E ++ [mEnd, []])) from rfl]
    rw [readScan_append_skip _ _ (by
      intro m hm
      have hm2 : m = ([] : Str) := by simpa using hm
      subst hm2
      exact ⟨by decide, by decide⟩)]
    exact htail
  · rw [readScan_append_skip _ _ (outsideNorm_nonmarker C)]
    exact htail

/-!
Backup-name validation (hosts.go GetBackupContent / RestoreBackup) and
the restore path, over an explicit backup-directory listing.
-/

/-- Model of path/filepath.Base for slash-separated paths. -/
def baseName (p : Str) : Str :=
  if p = [] then str "."
  else
    let p2 := (p.reverse.dropWhile (fun c => c = '/')).reverse
    if p2 = [] then str "/"
    else (p2.reverse.takeWhile (fun c => c ≠ '/')).reverse

/-- The validation used by both RestoreBackup and GetBackupContent:
the name equals its own base name, begins with "hosts." and ends with
".bak" (hosts.go lines 251 and 268). -/
def validBackupName (name : Str) : Bool :=
  baseName name = name && (str "hosts.").isPrefixOf name
    && (str ".bak").isSuffixOf name

/-- Modelled from the spec: a valid backup name is a bare basename of
the form hosts.SOMETHING.bak, strictly longer than the prefix "hosts."
plus the suffix ".bak", so that the two cannot overlap.  This is the
pattern the spec states for path-traversal resistance; the repository
does not contain a separate definition of it. -/
def specBackupNameValid (name : Str) : Bool :=
  baseName name = name && (str "hosts.").isPrefixOf name
    && (str ".bak").isSuffixOf name && decide (name.length ≥ 11)

/-- Result of a restore request: rejected by validation (no file
touched), read attempted but failed, or fully restored. -/
inductive RestoreResult where
  | rejected
  | readFailed
  | restored (content : Str)
deriving DecidableEq, Repr

/-- Lookup of a backup file in the backup directory listing. -/
def lookupFile (files : List (Str × Str)) (n : Str) : Option Str :=
  (files.find? (fun f => f.1 = n)).map (·.2)

/-- hosts.go RestoreBackup: validate the name, read the backup file,
then back up the current state and atomically write the restored
content.  A name that fails validation causes no file access. -/
def RestoreBackup (files : List (Str × Str)) (name : Str) : RestoreResult :=
  if validBackupName name then
    match lookupFile files name with
    | none => RestoreResult.readFailed
    | some content => RestoreResult.restored content
  else RestoreResult.rejected

example : validBackupName (str "../../../etc/passwd") = false := by decide
example : validBackupName (str "hosts.20231201-120000.bak") = true := by decide
example : validBackupName (str "") = false := by decide

/-!
Configuration store (internal/config).  The YAML document model and
the mutation operations of config.go, as pure functions.  Go methods
that mutate the receiver in place are modelled as functions returning
the new configuration value.
-/

namespace config

/-- config.go Host. -/
structure Host where
  domain : Str
  ip : Str
  aliasName : Str
  enabled : Bool
deriving DecidableEq, Repr

/-- config.go Group. -/
structure Group where
  name : Str
  hosts : List Host
deriving DecidableEq, Repr

/-- config.go Preset. -/
structure Preset where
  name : Str
  enable : List Str
  disable : List Str
deriving DecidableEq, Repr

/-- config.go Config (the settings block carries no data the claims
depend on and is omitted). -/
structure Config where
  groups : List Group
  presets : List Preset
deriving DecidableEq, Repr

/-- The aliases of all hosts across all groups, in configuration
order. -/
def aliasesOf (gs : List Group) : List Str :=
  (gs.map (fun g => g.hosts.map (·.aliasName))).flatten

/-- config.go FindHostByAlias: first host whose alias matches,
scanning groups in order and hosts in order. -/
def findHostByAlias (c : Config) (a : Str) : Option Host :=
  (c.groups.map (·.hosts)).flatten.find? (fun h => h.aliasName == a)

/-- Set-enabled inside one host list: first match wins; the Bool
reports whether a match was found. -/
def setEnabledHosts (hs : List Host) (a : Str) (b : Bool) : List Host × Bool :=
  match hs with
  | [] => ([], false)
  | h :: t =>
    if h.aliasName = a then (⟨h.domain, h.ip, h.aliasName, b⟩ :: t, true)
    else
      let r := setEnabledHosts t a b
      (h :: r.1, r.2)

/-- config.go SetHostEnabled over the group list. -/
def setEnabledGroups (gs : List Group) (a : Str) (b : Bool) : List Group × Bool :=
  match gs with
  | [] => ([], false)
  | g :: t =>
    let r := setEnabledHosts g.hosts a b
    if r.2 then (⟨g.name, r.1⟩ :: t, true)
    else
      let r2 := setEnabledGroups t a b
      (g :: r2.1, r2.2)

/-- config.go DeleteHost inside one host list (first match removed). -/
def deleteInHosts (hs : List Host) (a : Str) : List Host × Bool :=
  match hs with
  | [] => ([], false)
  | h :: t =>
    if h.aliasName = a then (t, true)
    else
      let r := deleteInHosts t a
      (h :: r.1, r.2)

/-- config.go DeleteHost over the group list. -/
def deleteHostGroups (gs : List Group) (a : Str) : List Group × Bool :=
  match gs with
  | [] => ([], false)
  | g :: t =>
    let r := deleteInHosts g.hosts a
    if r.2 then (⟨g.name, r.1⟩ :: t, true)
    else
      let r2 := deleteHostGroups t a
      (g :: r2.1, r2.2)

/-- config.go AddHost host placement: append to the first group with
the given name, or append a new group holding just this host. -/
def addHostToGroups (gs : List Group) (groupName : Str) (h : Host) : List Group :=
  match gs with
  | [] => [⟨groupName, [h]⟩]
  | g :: t =>
    if g.name = groupName then ⟨g.name, g.hosts ++ [h]⟩ :: t
    else g :: addHostToGroups t groupName h

/-- config.go GenerateAlias sanitization: dots and underscores become
hyphens, then lowercase. -/
def sanitizeAlias (domain : Str) : Str :=
  (domain.map (fun c => if c = '.' || c = '_' then '-' else c)).map
    (fun c => c.toLower)

/-- Decimal rendering of a counter, as Go fmt %d prints it. -/
def decRepr (n : Nat) : Str :=
  if n = 0 then ['0'] else ((Nat.digits 10 n).map Nat.digitChar).reverse

/-- Candidate alias for loop counter k: the base itself for k = 1,
base-k for k ≥ 2 (config.go GenerateAlias loop). -/
def aliasCand (base : Str) (k : Nat) : Str :=
  if k ≤ 1 then base else base ++ '-' :: decRepr k

end config

namespace config

theorem digitChar_inj_lt10 :
    ∀ a < 10, ∀ b < 10, Nat.digitChar a = Nat.digitChar b → a = b := by
  decide

theorem map_digitChar_inj (l1 l2 : List Nat)
    (h1 : ∀ d ∈ l1, d < 10) (h2 : ∀ d ∈ l2, d < 10)
    (h : l1.map Nat.digitChar = l2.map Nat.digitChar) : l1 = l2 := by
  induction l1 generalizing l2 with
  | nil => cases l2 with
    | nil => rfl
    | cons b bs => simp at h
  | cons a as ih =>
    cases l2 with
    | nil => simp at h
    | cons b bs =>
      simp only [List.map_cons, List.cons.injEq] at h
      have hab : a = b :=
        digitChar_inj_lt10 a (h1 a (List.mem_cons_self _ _))
          b (h2 b (List.mem_cons_self _ _)) h.1
      rw [hab, ih bs (fun d hd => h1 d (List.mem_cons_of_mem a hd))
        (fun d hd => h2 d (List.mem_cons_of_mem b hd)) h.2]

theorem decRepr_inj {m n : Nat} (hm : 0 < m) (hn : 0 < n)
    (h : decRepr m = decRepr n) : m = n := by
  unfold decRepr at h
  rw [if_neg (Nat.pos_iff_ne_zero.mp hm), if_neg (Nat.pos_iff_ne_zero.mp hn)] at h
  have h2 : (Nat.digits 10 m).map Nat.digitChar
      = (Nat.digits 10 n).map Nat.digitChar := by
    have := congrArg List.reverse h
    simpa using this
  have h3 : Nat.digits 10 m = Nat.digits 10 n :=
    map_digitChar_inj _ _
      (fun d hd => Nat.digits_lt_base (by norm_num) hd)
      (fun d hd => Nat.digits_lt_base (by norm_num) hd) h2
  have h4 := congrArg (Nat.ofDigits 10) h3
  rwa [Nat.ofDigits_digits, Nat.ofDigits_digits] at h4

theorem aliasCand_inj_ge2 (base : Str) {j k : Nat} (hj : 2 ≤ j) (hk : 2 ≤ k)
    (h : aliasCand base j = aliasCand base k) : j = k := by
  unfold aliasCand at h
  rw [if_neg (by omega), if_neg (by omega)] at h
  have h2 : '-' :: decRepr j = '-' :: decRepr k := List.append_cancel_left h
  exact decRepr_inj (by omega) (by omega) (List.cons.injEq _ _ _ _ ▸ h2).2

/-- The GenerateAlias loop terminates: some candidate is unused
(pigeonhole over the finitely many existing aliases). -/
theorem exists_free_cand (base : Str) (used : List Str) :
    ∃ n, aliasCand base (n + 1) ∉ used := by
  by_contra hcon
  push_neg at hcon
  have hf : Function.Injective
      (fun i : Fin (used.length + 1) => aliasCand base (i.val + 2)) := by
    intro i1 i2 hi
    have := aliasCand_inj_ge2 base (j := i1.val + 2) (k := i2.val + 2)
      (by omega) (by omega) hi
    exact Fin.ext (by omega)
  have hsub : Finset.image
      (fun i : Fin (used.length + 1) => aliasCand base (i.val + 2))
      Finset.univ ⊆ used.toFinset := by
    intro x hx
    obtain ⟨i, _, hix⟩ := Finset.mem_image.mp hx
    rw [List.mem_toFinset, ← hix]
    exact hcon (i.val + 1)
  have hcard := Finset.card_le_card hsub
  rw [Finset.card_image_of_injective _ hf, Finset.card_univ, Fintype.card_fin] at hcard
  have := List.toFinset_card_le used
  omega

/-- config.go GenerateAlias: first free candidate, counting from the
bare sanitized base. -/
def generateAlias (c : Config) (domain : Str) : Str :=
  let base := sanitizeAlias domain
  aliasCand base
    (Nat.find (exists_free_cand base (aliasesOf c.groups)) + 1)

theorem generateAlias_not_mem (c : Config) (domain : Str) :
    generateAlias c domain ∉ aliasesOf c.groups :=
  Nat.find_spec (exists_free_cand (sanitizeAlias domain) (aliasesOf c.groups))

/-- config.go AddHost: auto-generate the alias when absent, otherwise
reject a duplicate; place the host in its group. -/
def addHost (c : Config) (domain ip aliasArg groupName : Str)
    (enabled : Bool) : Option Config :=
  if aliasArg = [] then
    some ⟨addHostToGroups c.groups groupName
      ⟨domain, ip, generateAlias c domain, enabled⟩, c.presets⟩
  else if (findHostByAlias c aliasArg).isSome then none
  else some ⟨addHostToGroups c.groups groupName
    ⟨domain, ip, aliasArg, enabled⟩, c.presets⟩

/-- config.go AddGroup. -/
def addGroup (c : Config) (name : Str) : Option Config :=
  if (c.groups.find? (fun g => g.name == name)).isSome then none
  else some ⟨c.groups ++ [⟨name, []⟩], c.presets⟩

/-- Removal of the first group with the given name. -/
def deleteGroupIn (gs : List Group) (name : Str) : List Group × Bool :=
  match gs with
  | [] => ([], false)
  | g :: t =>
    if g.name = name then (t, true)
    else
      let r := deleteGroupIn t name
      (g :: r.1, r.2)

/-- config.go DeleteGroup. -/
def deleteGroup (c : Config) (name : Str) : Option Config :=
  let r := deleteGroupIn c.groups name
  if r.2 then some ⟨r.1, c.presets⟩ else none

/-- Failure kinds of RenameGroup, distinguished by the error message
in config.go. -/
inductive RenameErr where
  | newNameExists
  | oldMissing
deriving DecidableEq, Repr

/-- Rename of the first group with the old name. -/
def renameGroupIn (gs : List Group) (oldN newN : Str) : List Group × Bool :=
  match gs with
  | [] => ([], false)
  | g :: t =>
    if g.name = oldN then (⟨newN, g.hosts⟩ :: t, true)
    else
      let r := renameGroupIn t oldN newN
      (g :: r.1, r.2)

/-- config.go RenameGroup: the duplicate check on the new name runs
first, before the old name is looked up. -/
def renameGroup (c : Config) (oldN newN : Str) : Except RenameErr Config :=
  if (c.groups.find? (fun g => g.name == newN)).isSome then
    Except.error RenameErr.newNameExists
  else
    let r := renameGroupIn c.groups oldN newN
    if r.2 then Except.ok ⟨r.1, c.presets⟩
    else Except.error RenameErr.oldMissing

/-- config.go DeleteHost. -/
def deleteHost (c : Config) (a : Str) : Config × Bool :=
  let r := deleteHostGroups c.groups a
  (⟨r.1, c.presets⟩, r.2)

/-- config.go SetHostEnabled. -/
def setHostEnabled (c : Config) (a : Str) (b : Bool) : Config × Bool :=
  let r := setEnabledGroups c.groups a b
  (⟨r.1, c.presets⟩, r.2)

/-- config.go FindPreset. -/
def findPreset (c : Config) (n : Str) : Option Preset :=
  c.presets.find? (fun p => p.name == n)

/-- config.go ApplyPreset: the enable list is applied first, then the
disable list; unknown aliases are silently skipped. -/
def applyPreset (c : Config) (n : Str) : Option Config :=
  match findPreset c n with
  | none => none
  | some p =>
    let gs1 := p.enable.foldl (fun gs a => (setEnabledGroups gs a true).1) c.groups
    let gs2 := p.disable.foldl (fun gs a => (setEnabledGroups gs a false).1) gs1
    some ⟨gs2, c.presets⟩

/-- config.go AddPreset. -/
def addPreset (c : Config) (n : Str) (en dis : List Str) : Option Config :=
  if (c.presets.find? (fun p => p.name == n)).isSome then none
  else some ⟨c.groups, c.presets ++ [⟨n, en, dis⟩]⟩

/-- config.go DeletePreset. -/
def deletePresetIn (ps : List Preset) (n : Str) : List Preset × Bool :=
  match ps with
  | [] => ([], false)
  | p :: t =>
    if p.name = n then (t, true)
    else
      let r := deletePresetIn t n
      (p :: r.1, r.2)

/-- config.go DeletePreset. -/
def deletePreset (c : Config) (n : Str) : Option Config :=
  let r := deletePresetIn c.presets n
  if r.2 then some ⟨c.groups, r.1⟩ else none

/-- config.go EnsureDefaultGroup: synthesize a group named default
when no group exists; called only from daemon.New at startup. -/
def ensureDefaultGroup (c : Config) : Config :=
  if c.groups = [] then ⟨[⟨str "default", []⟩], c.presets⟩ else c

end config

namespace config

/-- First group containing the alias, together with the found host
(the (foundGroup, foundHost) search of config.go UpdateHost). -/
def findHostGroup : List Group → Str → Option (Group × Host)
  | [], _ => none
  | g :: t, a =>
    match g.hosts.find? (fun h => h.aliasName == a) with
    | some h => some (g, h)
    | none => findHostGroup t a

/-- In-place update of the first host with the old alias. -/
def updateHostsInPlace (hs : List Host) (oldA domain ip newA : Str) : List Host :=
  match hs with
  | [] => []
  | h :: t =>
    if h.aliasName = oldA then ⟨domain, ip, newA, h.enabled⟩ :: t
    else h :: updateHostsInPlace t oldA domain ip newA

/-- In-place update inside the first group containing the old alias. -/
def updateGroupsInPlace (gs : List Group) (oldA domain ip newA : Str) : List Group :=
  match gs with
  | [] => []
  | g :: t =>
    if (g.hosts.find? (fun h => h.aliasName == oldA)).isSome then
      ⟨g.name, updateHostsInPlace g.hosts oldA domain ip newA⟩ :: t
    else g :: updateGroupsInPlace t oldA domain ip newA

/-- Failure kinds of UpdateHost. -/
inductive UpdateErr where
  | notFound
  | conflict
deriving DecidableEq, Repr

/-- config.go UpdateHost: find the host, reject a conflicting new
alias, then either move it to the target group (preserving its
enabled flag) or update it in place. -/
def updateHost (c : Config) (oldA domain ip newA groupName : Str) :
    Except UpdateErr Config :=
  match findHostGroup c.groups oldA with
  | none => Except.error UpdateErr.notFound
  | some (g, h) =>
    if oldA ≠ newA ∧ (findHostByAlias c newA).isSome then
      Except.error UpdateErr.conflict
    else if g.name ≠ groupName then
      Except.ok ⟨addHostToGroups (deleteHostGroups c.groups oldA).1 groupName
        ⟨domain, ip, newA, h.enabled⟩, c.presets⟩
    else
      Except.ok ⟨updateGroupsInPlace c.groups oldA domain ip newA, c.presets⟩

end config

namespace config

theorem aliasesOf_cons (g : Group) (t : List Group) :
    aliasesOf (g :: t) = g.hosts.map (·.aliasName) ++ aliasesOf t := rfl

theorem aliasesOf_append (a b : List Group) :
    aliasesOf (a ++ b) = aliasesOf a ++ aliasesOf b := by
  unfold aliasesOf
  rw [List.map_append, List.flatten_append]

theorem setEnabledHosts_aliases (hs : List Host) (a : Str) (b : Bool) :
    (setEnabledHosts hs a b).1.map (·.aliasName) = hs.map (·.aliasName) := by
  induction hs with
  | nil => rfl
  | cons h t ih =>
    unfold setEnabledHosts
    split
    · rfl
    · simp only [List.map_cons]
      rw [ih]

theorem setEnabledGroups_aliases (gs : List Group) (a : Str) (b : Bool) :
    aliasesOf (setEnabledGroups gs a b).1 = aliasesOf gs := by
  induction gs with
  | nil => rfl
  | cons g t ih =>
    by_cases hf : (setEnabledHosts g.hosts a b).2 = true
    · simp only [setEnabledGroups, hf, if_pos]
      rw [aliasesOf_cons, aliasesOf_cons]
      simp only
      rw [setEnabledHosts_aliases]
    · simp only [setEnabledGroups, hf]
      rw [if_neg (show ¬ (false = true) by simp)]
      rw [aliasesOf_cons, aliasesOf_cons, ih]

theorem foldl_setEnabled_aliases (gs : List Group) (as : List Str) (b : Bool) :
    aliasesOf (as.foldl (fun gs a => (setEnabledGroups gs a b).1) gs)
      = aliasesOf gs := by
  induction as generalizing gs with
  | nil => rfl
  | cons a t ih =>
    show aliasesOf (t.foldl _ (setEnabledGroups gs a b).1) = aliasesOf gs
    rw [ih, setEnabledGroups_aliases]

theorem deleteInHosts_aliases (hs : List Host) (a : Str) :
    (deleteInHosts hs a).1.map (·.aliasName) = (hs.map (·.aliasName)).erase a := by
  induction hs with
  | nil => rfl
  | cons h t ih =>
    unfold deleteInHosts
    split
    · rename_i heq
      simp only [List.map_cons, heq, List.erase_cons_head]
    · rename_i hne
      simp only [List.map_cons]
      rw [List.erase_cons_tail (by simpa using hne), ih]

theorem deleteInHosts_found (hs : List Host) (a : Str) :
    (deleteInHosts hs a).2 = true ↔ a ∈ hs.map (·.aliasName) := by
  induction hs with
  | nil => simp [deleteInHosts]
  | cons h t ih =>
    unfold deleteInHosts
    split
    · rename_i heq
      simp [heq]
    · rename_i hne
      simp only [List.map_cons, List.mem_cons]
      rw [ih]
      constructor
      · exact Or.inr
      · rintro (h1 | h1)
        · exact absurd h1.symm hne
        · exact h1

theorem deleteHostGroups_aliases (gs : List Group) (a : Str) :
    aliasesOf (deleteHostGroups gs a).1 = (aliasesOf gs).erase a := by
  induction gs with
  | nil => rfl
  | cons g t ih =>
    by_cases hf : (deleteInHosts g.hosts a).2 = true
    · simp only [deleteHostGroups, hf, if_pos]
      rw [aliasesOf_cons, aliasesOf_cons]
      simp only
      rw [deleteInHosts_aliases,
        List.erase_append_left _ ((deleteInHosts_found g.hosts a).mp hf)]
    · have hnotmem : a ∉ g.hosts.map (·.aliasName) := by
        intro hmem
        exact hf ((deleteInHosts_found g.hosts a).mpr hmem)
      simp only [deleteHostGroups, hf]
      rw [if_neg (show ¬ (false = true) by simp)]
      rw [aliasesOf_cons, aliasesOf_cons, ih,
        List.erase_append_right _ hnotmem]

theorem addHostToGroups_aliases (gs : List Group) (n : Str) (h : Host) :
    (aliasesOf (addHostToGroups gs n h)).Perm
      (aliasesOf gs ++ [h.aliasName]) := by
  induction gs with
  | nil =>
    simp [addHostToGroups, aliasesOf]
  | cons g t ih =>
    unfold addHostToGroups
    split
    · rw [aliasesOf_cons, aliasesOf_cons]
      simp only [List.map_append, List.map_cons, List.map_nil]
      rw [List.append_assoc, List.append_assoc]
      exact List.Perm.append_left _ List.perm_append_comm
    · rw [aliasesOf_cons, aliasesOf_cons, List.append_assoc]
      exact List.Perm.append_left _ ih

theorem find_alias_isSome (hs : List Host) (a : Str) :
    (hs.find? (fun h => h.aliasName == a)).isSome
      ↔ a ∈ hs.map (·.aliasName) := by
  rw [List.find?_isSome]
  simp only [List.mem_map, beq_iff_eq]

theorem aliasesOf_eq_flat (gs : List Group) :
    aliasesOf gs = ((gs.map (·.hosts)).flatten).map (·.aliasName) := by
  induction gs with
  | nil => rfl
  | cons g t ih =>
    rw [aliasesOf_cons]
    simp only [List.map_cons, List.flatten_cons, List.map_append]
    rw [ih]

theorem findHostByAlias_isSome (c : Config) (a : Str) :
    (findHostByAlias c a).isSome ↔ a ∈ aliasesOf c.groups := by
  unfold findHostByAlias
  rw [aliasesOf_eq_flat, List.find?_isSome]
  simp only [List.mem_map, beq_iff_eq]

theorem findHostGroup_isSome (gs : List Group) (a : Str) :
    (findHostGroup gs a).isSome ↔ a ∈ aliasesOf gs := by
  induction gs with
  | nil => simp [findHostGroup, aliasesOf]
  | cons g t ih =>
    unfold findHostGroup
    rw [aliasesOf_cons]
    cases hfind : g.hosts.find? (fun h => h.aliasName == a) with
    | some h =>
      have hmem : a ∈ g.hosts.map (·.aliasName) :=
        (find_alias_isSome g.hosts a).mp (by rw [hfind]; rfl)
      simp [List.mem_append, hmem]
    | none =>
      have hnmem : a ∉ g.hosts.map (·.aliasName) := by
        intro hmem
        have := (find_alias_isSome g.hosts a).mpr hmem
        rw [hfind] at this
        simp at this
      simp only [List.mem_append]
      rw [ih]
      constructor
      · exact Or.inr
      · rintro (h1 | h1)
        · exact absurd h1 hnmem
        · exact h1

theorem updateHostsInPlace_aliases (hs : List Host) (oldA d i newA : Str)
    (hmem : oldA ∈ hs.map (·.aliasName)) :
    ((updateHostsInPlace hs oldA d i newA).map (·.aliasName)).Perm
      (newA :: (hs.map (·.aliasName)).erase oldA) := by
  induction hs with
  | nil => simp at hmem
  | cons h t ih =>
    unfold updateHostsInPlace
    split
    · rename_i heq
      simp only [List.map_cons, heq, List.erase_cons_head]
      exact List.Perm.refl _
    · rename_i hne
      simp only [List.map_cons]
      rw [List.erase_cons_tail (by simpa using hne)]
      have hmem2 : oldA ∈ t.map (·.aliasName) := by
        rcases List.mem_cons.mp hmem with h1 | h1
        · exact absurd h1.symm hne
        · exact h1
      exact (List.Perm.cons _ (ih hmem2)).trans (List.Perm.swap _ _ _)

theorem updateGroupsInPlace_aliases (gs : List Group) (oldA d i newA : Str)
    (hmem : oldA ∈ aliasesOf gs) :
    (aliasesOf (updateGroupsInPlace gs oldA d i newA)).Perm
      (newA :: (aliasesOf gs).erase oldA) := by
  induction gs with
  | nil => simp [aliasesOf] at hmem
  | cons g t ih =>
    by_cases hf : (g.hosts.find? (fun h => h.aliasName == oldA)).isSome = true
    · have hmemg : oldA ∈ g.hosts.map (·.aliasName) :=
        (find_alias_isSome g.hosts oldA).mp hf
      simp only [updateGroupsInPlace, hf, if_pos]
      rw [aliasesOf_cons, aliasesOf_cons]
      simp only
      rw [List.erase_append_left _ hmemg]
      have hperm := updateHostsInPlace_aliases g.hosts oldA d i newA hmemg
      exact (hperm.append_right (aliasesOf t)).trans (List.Perm.refl _)
    · have hnmem : oldA ∉ g.hosts.map (·.aliasName) := by
        intro hm
        exact hf (by simpa using (find_alias_isSome g.hosts oldA).mpr hm)
      have hmem2 : oldA ∈ aliasesOf t := by
        rw [aliasesOf_cons] at hmem
        rcases List.mem_append.mp hmem with h1 | h1
        · exact absurd h1 hnmem
        · exact h1
      simp only [updateGroupsInPlace, hf]
      rw [if_neg (show ¬ (false = true) by simp)]
      rw [aliasesOf_cons, aliasesOf_cons,
        List.erase_append_right _ hnmem]
      have := (ih hmem2).append_left (g.hosts.map (·.aliasName))
      exact this.trans (List.perm_middle.symm).symm

theorem deleteGroupIn_aliases_sublist (gs : List Group) (n : Str) :
    (aliasesOf (deleteGroupIn gs n).1).Sublist (aliasesOf gs) := by
  induction gs with
  | nil => exact List.Sublist.refl _
  | cons g t ih =>
    unfold deleteGroupIn
    split
    · rw [aliasesOf_cons]
      exact List.sublist_append_right _ _
    · rw [aliasesOf_cons, aliasesOf_cons]
      exact List.Sublist.append_left ih _

theorem renameGroupIn_aliases (gs : List Group) (oldN newN : Str) :
    aliasesOf (renameGroupIn gs oldN newN).1 = aliasesOf gs := by
  induction gs with
  | nil => rfl
  | cons g t ih =>
    unfold renameGroupIn
    split
    · rw [aliasesOf_cons, aliasesOf_cons]
    · rw [aliasesOf_cons, aliasesOf_cons, ih]

/-- The mutations the configuration store accepts, with their request
arguments (config.go public mutators). -/
inductive Mutation where
  | addHost (domain ip aliasArg groupName : Str) (enabled : Bool)
  | updateHost (oldA domain ip newA groupName : Str)
  | deleteHost (a : Str)
  | setHostEnabled (a : Str) (b : Bool)
  | addGroup (name : Str)
  | deleteGroup (name : Str)
  | renameGroup (oldN newN : Str)
  | addPreset (n : Str) (en dis : List Str)
  | deletePreset (n : Str)
  | applyPreset (n : Str)

/-- Apply a mutation; some on acceptance, none when the store rejects
it (CONFLICT / NOT_FOUND). -/
def applyMutation (c : Config) : Mutation → Option Config
  | Mutation.addHost d i a g e => addHost c d i a g e
  | Mutation.updateHost o d i n g => (updateHost c o d i n g).toOption
  | Mutation.deleteHost a =>
    let r := deleteHost c a
    if r.2 then some r.1 else none
  | Mutation.setHostEnabled a b => some (setHostEnabled c a b).1
  | Mutation.addGroup n => addGroup c n
  | Mutation.deleteGroup n => deleteGroup c n
  | Mutation.renameGroup o n => (renameGroup c o n).toOption
  | Mutation.addPreset n e d => addPreset c n e d
  | Mutation.deletePreset n => deletePreset c n
  | Mutation.applyPreset n => applyPreset c n

theorem nodup_append_singleton {L : List Str} {a : Str}
    (hL : L.Nodup) (ha : a ∉ L) : (L ++ [a]).Nodup := by
  rw [List.nodup_append]
  exact ⟨hL, List.nodup_singleton _,
    fun x hx hx2 => ha ((List.mem_singleton.mp hx2) ▸ hx)⟩

end config

namespace config

theorem aliasUniq_addHost (c : Config) (d i a g : Str) (e : Bool) (c2 : Config)
    (hN : (aliasesOf c.groups).Nodup) (h : addHost c d i a g e = some c2) :
    (aliasesOf c2.groups).Nodup := by
  unfold addHost at h
  split at h
  · have hc2 : c2.groups = addHostToGroups c.groups g
        ⟨d, i, generateAlias c d, e⟩ := by
      cases h
      rfl
    rw [hc2]
    refine ((addHostToGroups_aliases _ _ _).nodup_iff).mpr ?_
    exact nodup_append_singleton hN (generateAlias_not_mem c d)
  · split at h
    · simp at h
    · rename_i hnone
      have hc2 : c2.groups = addHostToGroups c.groups g ⟨d, i, a, e⟩ := by
        cases h
        rfl
      rw [hc2]
      refine ((addHostToGroups_aliases _ _ _).nodup_iff).mpr ?_
      exact nodup_append_singleton hN
        (fun hmem => hnone ((findHostByAlias_isSome c a).mpr hmem))

theorem aliasUniq_updateHost (c : Config) (o d i n g : Str) (c2 : Config)
    (hN : (aliasesOf c.groups).Nodup)
    (h : (updateHost c o d i n g).toOption = some c2) :
    (aliasesOf c2.groups).Nodup := by
  unfold updateHost at h
  cases hfind : findHostGroup c.groups o with
  | none =>
    rw [hfind] at h
    simp [Except.toOption] at h
  | some gh =>
    obtain ⟨g0, h0⟩ := gh
    rw [hfind] at h
    have homem : o ∈ aliasesOf c.groups :=
      (findHostGroup_isSome c.groups o).mp (by rw [hfind]; rfl)
    dsimp only at h
    by_cases hconf : o ≠ n ∧ (findHostByAlias c n).isSome = true
    · rw [if_pos hconf] at h
      simp [Except.toOption] at h
    · rw [if_neg hconf] at h
      have hfree : n ∉ (aliasesOf c.groups).erase o := by
        by_cases hon : o = n
        · subst hon
          exact hN.not_mem_erase
        · have hnmem : n ∉ aliasesOf c.groups := by
            intro hm
            exact hconf ⟨hon, (findHostByAlias_isSome c n).mpr hm⟩
          exact fun hm => hnmem ((List.erase_sublist _ _).mem hm)
      by_cases hmove : g0.name ≠ g
      · rw [if_pos hmove] at h
        simp only [Except.toOption] at h
        have hc2 : c2.groups = addHostToGroups (deleteHostGroups c.groups o).1 g
            ⟨d, i, n, h0.enabled⟩ := by
          cases h
          rfl
        rw [hc2]
        refine ((addHostToGroups_aliases _ _ _).nodup_iff).mpr ?_
        rw [deleteHostGroups_aliases]
        exact nodup_append_singleton (hN.erase o) hfree
      · rw [if_neg hmove] at h
        simp only [Except.toOption] at h
        have hc2 : c2.groups = updateGroupsInPlace c.groups o d i n := by
          cases h
          rfl
        rw [hc2]
        refine ((updateGroupsInPlace_aliases c.groups o d i n homem).nodup_iff).mpr ?_
        rw [List.nodup_cons]
        exact ⟨hfree, hN.erase o⟩

/-- Alias uniqueness is preserved by every accepted mutation of the
configuration store. -/
theorem aliasUniqueness_preserved (c : Config) (m : Mutation) (c2 : Config)
    (hN : (aliasesOf c.groups).Nodup) (h : applyMutation c m = some c2) :
    (aliasesOf c2.groups).Nodup := by
  cases m with
  | addHost d i a g e => exact aliasUniq_addHost c d i a g e c2 hN h
  | updateHost o d i n g => exact aliasUniq_updateHost c o d i n g c2 hN h
  | deleteHost a =>
    simp only [applyMutation] at h
    split at h
    · have hc2 : c2.groups = (deleteHostGroups c.groups a).1 := by
        cases h
        rfl
      rw [hc2, deleteHostGroups_aliases]
      exact hN.erase a
    · simp at h
  | setHostEnabled a b =>
    simp only [applyMutation] at h
    have hc2 : c2.groups = (setEnabledGroups c.groups a b).1 := by
      cases h
      rfl
    rw [hc2, setEnabledGroups_aliases]
    exact hN
  | addGroup n =>
    simp only [applyMutation, addGroup] at h
    split at h
    · simp at h
    · have hc2 : c2.groups = c.groups ++ [⟨n, []⟩] := by
        cases h
        rfl
      rw [hc2, aliasesOf_append]
      simpa [aliasesOf] using hN
  | deleteGroup n =>
    simp only [applyMutation, deleteGroup] at h
    split at h
    · have hc2 : c2.groups = (deleteGroupIn c.groups n).1 := by
        cases h
        rfl
      rw [hc2]
      exact hN.sublist (deleteGroupIn_aliases_sublist c.groups n)
    · simp at h
  | renameGroup o n =>
    simp only [applyMutation, renameGroup] at h
    split at h
    · simp [Except.toOption] at h
    · split at h
      · have hc2 : c2.groups = (renameGroupIn c.groups o n).1 := by
          simp only [Except.toOption] at h
          cases h
          rfl
        rw [hc2, renameGroupIn_aliases]
        exact hN
      · simp [Except.toOption] at h
  | addPreset n e d =>
    simp only [applyMutation, addPreset] at h
    split at h
    · simp at h
    · have hc2 : c2.groups = c.groups := by
        cases h
        rfl
      rw [hc2]
      exact hN
  | deletePreset n =>
    simp only [applyMutation, deletePreset] at h
    split at h
    · have hc2 : c2.groups = c.groups := by
        cases h
        rfl
      rw [hc2]
      exact hN
    · simp at h
  | applyPreset n =>
    simp only [applyMutation, applyPreset] at h
    split at h
    · simp at h
    · rename_i p hp
      have hc2 : c2.groups
          = p.disable.foldl (fun gs a => (setEnabledGroups gs a false).1)
            (p.enable.foldl (fun gs a => (setEnabledGroups gs a true).1)
              c.groups) := by
        cases h
        rfl
      rw [hc2, foldl_setEnabled_aliases, foldl_setEnabled_aliases]
      exact hN

end config

/-!
Validation (internal/config validation.go): domain grammar, blocklist.
The anchored domain regex
(?:[a-zA-Z0-9](?:[a-zA-Z0-9-]{0,61}[a-zA-Z0-9])?\.)+[a-zA-Z]{2,} | localhost
is equivalent to splitting on dots (no label may contain a dot) and
checking each piece, which is how it is embedded here.
-/

/-- ASCII alphanumeric, the regex class [a-zA-Z0-9]. -/
def isAlphaNum (c : Char) : Bool := c.isAlpha || c.isDigit

/-- Split a string on a separator character (strings.Split). -/
def splitOnChar (sep : Char) : Str → List Str
  | [] => [[]]
  | c :: cs =>
    if c = sep then [] :: splitOnChar sep cs
    else
      match splitOnChar sep cs with
      | [] => [[c]]
      | h :: t => (c :: h) :: t

/-- One non-final domain label:
[a-zA-Z0-9](?:[a-zA-Z0-9-]{0,61}[a-zA-Z0-9])? -/
def validLabel (l : Str) : Bool :=
  match l with
  | [] => false
  | c :: rest =>
    isAlphaNum c && decide ((c :: rest).length ≤ 63) &&
      (match rest.getLast? with
       | none => true
       | some lastc =>
         isAlphaNum lastc && rest.dropLast.all (fun x => isAlphaNum x || x = '-'))

/-- validation.go ValidateDomain. -/
def validateDomain (domain : Str) : Bool :=
  if domain = [] then false
  else if domain = str "localhost" then true
  else
    let parts := splitOnChar '.' domain
    decide (parts.length ≥ 2) &&
      (match parts.getLast? with
       | none => false
       | some tld => decide (tld.length ≥ 2) && tld.all (fun c => c.isAlpha)) &&
      parts.dropLast.all validLabel

/-- validation.go blockedDomains. -/
def blockedDomains : List Str :=
  [str "apple.com", str "icloud.com", str "icloud-content.com",
   str "apple-dns.cn", str "apple-dns.net", str "mzstatic.com",
   str "itunes.apple.com", str "updates.apple.com"]

/-- validation.go IsBlockedDomain: case-insensitive exact match or
dotted-subdomain match against the blocklist. -/
def isBlockedDomain (domain : Str) : Bool :=
  let d := domain.map (fun c => c.toLower)
  blockedDomains.any (fun b => d == b)
    || blockedDomains.any (fun b => ('.' :: b).isSuffixOf d)

example : validateDomain (str "example.com") = true := by decide
example : validateDomain (str "sub.example.com") = true := by decide
example : validateDomain (str "localhost") = true := by decide
example : validateDomain (str "example.c") = false := by decide
example : validateDomain (str "example") = false := by decide
example : validateDomain (str "-example.com") = false := by decide
example : validateDomain (str "example-.com") = false := by decide
example : validateDomain (str ".example.com") = false := by decide
example : validateDomain (str "example..com") = false := by decide
example : isBlockedDomain (str "apple.com") = true := by decide
example : isBlockedDomain (str "sub.apple.com") = true := by decide
example : isBlockedDomain (str "APPLE.COM") = true := by decide
example : isBlockedDomain (str "applestore.com") = false := by decide
example : isBlockedDomain (str "notapple.com") = false := by decide

/-!
Protocol envelope and the server's request handlers
(internal/daemon/server.go).

The response envelope is modelled from the spec: status is exactly ok
or error, an error carries a code from the fixed taxonomy (the
protocol package itself is not part of the sources; its constructors
NewOKResponse / NewErrorResponse are pinned by the spec and by the
protocol tests).  Success payloads carry no information any claim
depends on and are omitted.

Handlers run against the in-memory configuration; the outcomes of the
three effectful stages - config save, host-file write, resolver-cache
flush - are explicit Boolean parameters, mirroring the sequence
save -> WriteManagedEntries -> Flush of server.go (syncHostsFile
returns the write error, or else the flush result, verbatim).
-/

/-- The wire error-code taxonomy (protocol, spec section 6). -/
inductive ErrCode where
  | invalidRequest
  | invalidDomain
  | invalidIP
  | blockedDomain
  | rateLimited
  | unauthorized
  | notFound
  | conflict
  | internalError
  | permissionError
deriving DecidableEq, Repr

/-- Modelled from the spec: a response is status ok, or status error
with an error code (NewOKResponse / NewErrorResponse). -/
inductive Response where
  | ok
  | err (code : ErrCode)
deriving DecidableEq, Repr

/-- Result of one handler run: the response, the in-memory
configuration afterwards, and whether the configuration file and the
host file were (successfully) written. -/
structure HandlerResult where
  resp : Response
  cfg : config.Config
  saved : Bool
  wrote : Bool
deriving DecidableEq, Repr

/-- The shared mutation epilogue of server.go handlers: persist the
configuration (INTERNAL_ERROR on failure, in-memory state retained),
then syncHostsFile = WriteManagedEntries followed by Flush, each
failure surfacing as INTERNAL_ERROR. -/
def mutationEpilogue (c2 : config.Config) (saveOk writeOk flushOk : Bool) :
    HandlerResult :=
  if saveOk = false then ⟨Response.err ErrCode.internalError, c2, false, false⟩
  else if writeOk = false then
    ⟨Response.err ErrCode.internalError, c2, true, false⟩
  else if flushOk = false then
    ⟨Response.err ErrCode.internalError, c2, true, true⟩
  else ⟨Response.ok, c2, true, true⟩

/-- All hosts of the configuration in order (config.go GetAllHosts). -/
def allHosts (c : config.Config) : List config.Host :=
  (c.groups.map (·.hosts)).flatten

/-- server.go handleSet. -/
def handleSet (c : config.Config) (aliasArg : Str) (enabled force : Bool)
    (saveOk writeOk flushOk : Bool) : HandlerResult :=
  match config.findHostByAlias c aliasArg with
  | none => ⟨Response.err ErrCode.notFound, c, false, false⟩
  | some host =>
    if enabled && !force &&
        (allHosts c).any (fun h =>
          !(h.aliasName == aliasArg) && h.domain == host.domain && h.enabled) then
      ⟨Response.err ErrCode.conflict, c, false, false⟩
    else
      mutationEpilogue (config.setHostEnabled c aliasArg enabled).1
        saveOk writeOk flushOk

/-- server.go handleAdd: empty-field checks, blocklist check, AddHost,
then the mutation epilogue.  A non-empty domain is not checked against
the hostname grammar. -/
def handleAdd (c : config.Config) (domain ip aliasArg group : Str)
    (enabled : Bool) (saveOk writeOk flushOk : Bool) : HandlerResult :=
  if domain = [] then ⟨Response.err ErrCode.invalidDomain, c, false, false⟩
  else if ip = [] then ⟨Response.err ErrCode.invalidIP, c, false, false⟩
  else if group = [] then ⟨Response.err ErrCode.invalidRequest, c, false, false⟩
  else if isBlockedDomain domain then
    ⟨Response.err ErrCode.blockedDomain, c, false, false⟩
  else
    match config.addHost c domain ip aliasArg group enabled with
    | none => ⟨Response.err ErrCode.conflict, c, false, false⟩
    | some c2 => mutationEpilogue c2 saveOk writeOk flushOk

/-- server.go handleDelete. -/
def handleDelete (c : config.Config) (aliasArg : Str)
    (saveOk writeOk flushOk : Bool) : HandlerResult :=
  if aliasArg = [] then ⟨Response.err ErrCode.invalidRequest, c, false, false⟩
  else
    let r := config.deleteHost c aliasArg
    if r.2 then mutationEpilogue r.1 saveOk writeOk flushOk
    else ⟨Response.err ErrCode.notFound, c, false, false⟩

/-- server.go handleSync: reconcile only, no configuration change. -/
def handleSync (writeOk flushOk : Bool) : Response :=
  if writeOk = false then Response.err ErrCode.internalError
  else if flushOk = false then Response.err ErrCode.internalError
  else Response.ok

/-- server.go handlePreset. -/
def handlePreset (c : config.Config) (name : Str)
    (saveOk writeOk flushOk : Bool) : HandlerResult :=
  match config.applyPreset c name with
  | none => ⟨Response.err ErrCode.notFound, c, false, false⟩
  | some c2 => mutationEpilogue c2 saveOk writeOk flushOk

/-- server.go handleAddGroup (no host-file sync on this path). -/
def handleAddGroup (c : config.Config) (name : Str) (saveOk : Bool) :
    HandlerResult :=
  if name = [] then ⟨Response.err ErrCode.invalidRequest, c, false, false⟩
  else
    match config.addGroup c name with
    | none => ⟨Response.err ErrCode.conflict, c, false, false⟩
    | some c2 =>
      if saveOk = false then
        ⟨Response.err ErrCode.internalError, c2, false, false⟩
      else ⟨Response.ok, c2, true, false⟩

/-- server.go handleDeleteGroup. -/
def handleDeleteGroup (c : config.Config) (name : Str)
    (saveOk writeOk flushOk : Bool) : HandlerResult :=
  if name = [] then ⟨Response.err ErrCode.invalidRequest, c, false, false⟩
  else
    match config.deleteGroup c name with
    | none => ⟨Response.err ErrCode.notFound, c, false, false⟩
    | some c2 => mutationEpilogue c2 saveOk writeOk flushOk

/-- server.go handleRenameGroup: every RenameGroup failure - the old
name missing as well as the new name already taken - is answered with
the single code NOT_FOUND; no host-file sync on this path. -/
def handleRenameGroup (c : config.Config) (oldN newN : Str) (saveOk : Bool) :
    HandlerResult :=
  if oldN = [] || newN = [] then
    ⟨Response.err ErrCode.invalidRequest, c, false, false⟩
  else
    match config.renameGroup c oldN newN with
    | Except.error _ => ⟨Response.err ErrCode.notFound, c, false, false⟩
    | Except.ok c2 =>
      if saveOk = false then
        ⟨Response.err ErrCode.internalError, c2, false, false⟩
      else ⟨Response.ok, c2, true, false⟩

/-!
Per-connection request loop and rate limiter
(server.go handleConnection, part of the daemon package rate limiter).
Time is modelled as integers; a connection serves a single
authenticated peer, so a single sliding-window bucket suffices.
-/

/-- A parsed request; only its type token matters to routing. -/
structure Request where
  rtype : Str
deriving DecidableEq, Repr

/-- RateLimiter.Allow for one pid: drop expired timestamps, reject at
the limit (the pruned bucket is stored even on rejection), otherwise
record the new timestamp. -/
def rlAllow (limit : Nat) (window : Int) (bucket : List Int) (now : Int) :
    Bool × List Int :=
  let valid := bucket.filter (fun t => now - window < t)
  if limit ≤ valid.length then (false, valid)
  else (true, valid ++ [now])

/-- Per-connection server state: the request counter and the rate
bucket of the connection's pid. -/
structure ConnState where
  requestCount : Nat
  bucket : List Int
deriving DecidableEq, Repr

/-- One iteration of the handleConnection read loop, for one framed
line: a line that fails to parse is answered INVALID_REQUEST without
touching the counter; a rate-limited request is answered RATE_LIMITED
without touching the counter; an admitted request increments the
counter and is routed (whatever the route - including an unknown type,
which routes to an INVALID_REQUEST response). -/
def processLine (route : Request → Response) (limit : Nat) (window : Int)
    (st : ConnState) (parsed : Option Request) (now : Int) :
    ConnState × Response :=
  match parsed with
  | none => (st, Response.err ErrCode.invalidRequest)
  | some req =>
    let r := rlAllow limit window st.bucket now
    if r.1 = false then (⟨st.requestCount, r.2⟩, Response.err ErrCode.rateLimited)
    else (⟨st.requestCount + 1, r.2⟩, route req)

/-- The whole read loop over the framed lines of a connection. -/
def runConn (route : Request → Response) (limit : Nat) (window : Int)
    (st : ConnState) : List (Option Request × Int) → ConnState
  | [] => st
  | (line, now) :: rest =>
    runConn route limit window (processLine route limit window st line now).1 rest

/-- How many of the incoming lines parse and are admitted by the
sliding window, threading only the bucket. -/
def admittedCount (limit : Nat) (window : Int) (bucket : List Int) :
    List (Option Request × Int) → Nat
  | [] => 0
  | (line, now) :: rest =>
    match line with
    | none => admittedCount limit window bucket rest
    | some _ =>
      let r := rlAllow limit window bucket now
      if r.1 then 1 + admittedCount limit window r.2 rest
      else admittedCount limit window r.2 rest

/-!
Claim theorems.
-/

/-- C3: the repository's own validation of backup names accepts the
9-character name hosts.bak - its required prefix "hosts." and suffix
".bak" overlap on the shared dot - so RestoreBackup proceeds to read
the file of that name and, when it exists, restores it, whereas the
claim (and the spec's hosts.*.bak pattern, and the intent of the
repository's own test case "hosts.bak - Missing timestamp") requires
rejection with no file access.  The theorem evaluates the code's
validation and the restore path at the failing input and contrasts it
with the spec's pattern. -/
theorem c3_hosts_bak_validation_gap :
    validBackupName (str "hosts.bak") = true
    ∧ specBackupNameValid (str "hosts.bak") = false
    ∧ RestoreBackup [(str "hosts.bak", str "SNAPSHOT")] (str "hosts.bak")
        = RestoreResult.restored (str "SNAPSHOT")
    ∧ RestoreBackup [] (str "hosts.bak") = RestoreResult.readFailed := by
  decide

/-- C5 (counterexample): with an entry whose alias field contains
newlines, one reconcile injects a line (LEAK) that the next scan
counts as outside the managed region, so the outside lines of the
result differ from those of the original content. -/
theorem c5_claim_counterexample :
    outsideNorm (writeManagedEntriesContent (str "x")
        [⟨str "1.1.1.1", str "d.com",
          str "a\n" ++ mEnd ++ str "\nLEAK", true⟩])
      ≠ outsideNorm (str "x") := by
  decide

/-- C5 (amended): for any host-file content C and any finite sequence
of reconciles whose entry fields contain no newline character, the
lines outside the managed region (as the scanner delimits it) in the
result equal those of C, modulo removal of trailing blank lines on
both sides. -/
theorem c5_outside_lines_preserved (C : Str) (Es : List (List HostEntry))
    (h : ∀ E ∈ Es, ∀ e ∈ E, entryNoNL e) :
    outsideNorm (reconcileFold C Es) = outsideNorm C :=
  outsideNorm_reconcileFold C Es h

theorem c5_outside_lines_preserved_witness :
    (∀ E ∈ [[(⟨str "1.1.1.1", str "d.com", str "a", true⟩ : HostEntry)]],
      ∀ e ∈ E, entryNoNL e)
    ∧ outsideNorm (reconcileFold (str "x\ny")
        [[⟨str "1.1.1.1", str "d.com", str "a", true⟩]])
      = outsideNorm (str "x\ny") :=
  ⟨by decide, c5_outside_lines_preserved (str "x\ny")
    [[⟨str "1.1.1.1", str "d.com", str "a", true⟩]] (by decide)⟩

/-- C6 (counterexample): an entry whose IP begins with the hash sign
has non-empty whitespace-free fields, yet its written line is skipped
as a comment on read, so the round trip loses it. -/
theorem c6_claim_counterexample :
    (∀ c ∈ str "#1", isSpace c = false)
    ∧ readManagedEntries (writeManagedEntriesContent (str "x")
        [⟨str "#1", str "d.com", str "a", true⟩]) = []
    ∧ [((str "#1", str "d.com", str "a") : Str × Str × Str)] ≠ [] := by
  decide

/-- C6 (amended): for entries whose IP, domain and alias are
non-empty, contain no whitespace, and whose IP does not begin with a
hash, writing with WriteManagedEntries and reading back with
ReadManagedEntries yields exactly the (ip, domain, alias) triples of
the enabled entries, in order; disabled entries do not appear. -/
theorem c6_round_trip (C : Str) (E : List HostEntry)
    (hE : ∀ e ∈ E, entryOK e) :
    readManagedEntries (writeManagedEntriesContent C E)
      = (E.filter (·.enabled)).map (fun e => (e.ip, e.domain, e.aliasName)) :=
  readManagedEntries_write C E hE

theorem c6_round_trip_witness :
    (∀ e ∈ [(⟨str "1.1.1.1", str "d.com", str "a", true⟩ : HostEntry),
            ⟨str "2.2.2.2", str "e.com", str "b", false⟩],
      entryOK e)
    ∧ readManagedEntries (writeManagedEntriesContent (str "orig\n")
        [⟨str "1.1.1.1", str "d.com", str "a", true⟩,
         ⟨str "2.2.2.2", str "e.com", str "b", false⟩])
      = [(str "1.1.1.1", str "d.com", str "a")] :=
  ⟨by decide, by
    rw [c6_round_trip (str "orig\n")
      [⟨str "1.1.1.1", str "d.com", str "a", true⟩,
       ⟨str "2.2.2.2", str "e.com", str "b", false⟩] (by decide)]
    decide⟩

/-- C7 (counterexample): reconciling twice from an unreconciled
content produces two backups whose contents differ - the first holds
the pre-reconcile content, the second the reconciled content - so the
two backup files do not differ only in their timestamped names. -/
theorem c7_claim_counterexample :
    (reconcileStep (reconcileStep (str "127.0.0.1\tlocalhost\n", [])
        (str "20240101-000000") []) (str "20240101-000001") []).2
      = [(backupFileName (str "20240101-000000"), str "127.0.0.1\tlocalhost\n"),
         (backupFileName (str "20240101-000001"),
          writeManagedEntriesContent (str "127.0.0.1\tlocalhost\n") [])]
    ∧ writeManagedEntriesContent (str "127.0.0.1\tlocalhost\n") []
        ≠ str "127.0.0.1\tlocalhost\n" := by
  decide

/-- C7 (amended): for entries without newline characters in their
fields, reconciling twice with the same entry list is idempotent on
the host-file content - the second write produces byte-identical
content - and the two runs create exactly two backups named
hosts.TIMESTAMP.bak; the first snapshots the initial content and the
second snapshots the once-reconciled content (equal only when the
initial content was already reconciled). -/
theorem c7_reconcile_idempotent (C : Str) (E : List HostEntry)
    (ts1 ts2 : Str) (hE : ∀ e ∈ E, entryNoNL e) :
    (reconcileStep (reconcileStep (C, []) ts1 E) ts2 E).1
      = (reconcileStep (C, []) ts1 E).1
    ∧ (reconcileStep (reconcileStep (C, []) ts1 E) ts2 E).2
      = [(backupFileName ts1, C),
         (backupFileName ts2, writeManagedEntriesContent C E)] := by
  constructor
  · show writeManagedEntriesContent (writeManagedEntriesContent C E) E
      = writeManagedEntriesContent C E
    exact write_idem C E hE
  · rfl

theorem c7_reconcile_idempotent_witness :
    (∀ e ∈ [(⟨str "1.1.1.1", str "d.com", str "a", true⟩ : HostEntry)],
      entryNoNL e)
    ∧ (reconcileStep (reconcileStep (str "base\n", []) (str "t1")
        [⟨str "1.1.1.1", str "d.com", str "a", true⟩]) (str "t2")
        [⟨str "1.1.1.1", str "d.com", str "a", true⟩]).1
      = (reconcileStep (str "base\n", []) (str "t1")
        [⟨str "1.1.1.1", str "d.com", str "a", true⟩]).1 :=
  ⟨by decide, (c7_reconcile_idempotent (str "base\n")
    [⟨str "1.1.1.1", str "d.com", str "a", true⟩]
    (str "t1") (str "t2") (by decide)).1⟩

theorem runConn_count (route : Request → Response) (limit : Nat) (window : Int)
    (st : ConnState) (events : List (Option Request × Int)) :
    (runConn route limit window st events).requestCount
      = st.requestCount + admittedCount limit window st.bucket events := by
  induction events generalizing st with
  | nil => simp [runConn, admittedCount]
  | cons ev rest ih =>
    obtain ⟨line, now⟩ := ev
    cases line with
    | none =>
      show (runConn route limit window
        (processLine route limit window st none now).1 rest).requestCount = _
      rw [show (processLine route limit window st none now).1 = st from rfl]
      rw [ih st]
      rfl
    | some req =>
      show (runConn route limit window
        (processLine route limit window st (some req) now).1 rest).requestCount = _
      by_cases hall : (rlAllow limit window st.bucket now).1 = true
      · rw [show (processLine route limit window st (some req) now).1
              = ⟨st.requestCount + 1, (rlAllow limit window st.bucket now).2⟩ from by
            simp [processLine, hall]]
        rw [ih]
        show st.requestCount + 1 + admittedCount limit window
            (rlAllow limit window st.bucket now).2 rest = _
        rw [show admittedCount limit window st.bucket ((some req, now) :: rest)
              = 1 + admittedCount limit window
                  (rlAllow limit window st.bucket now).2 rest from by
            simp [admittedCount, hall]]
        omega
      · rw [show (processLine route limit window st (some req) now).1
              = ⟨st.requestCount, (rlAllow limit window st.bucket now).2⟩ from by
            simp [processLine, hall]]
        rw [ih]
        show st.requestCount + admittedCount limit window
            (rlAllow limit window st.bucket now).2 rest = _
        rw [show admittedCount limit window st.bucket ((some req, now) :: rest)
              = admittedCount limit window
                  (rlAllow limit window st.bucket now).2 rest from by
            simp [admittedCount, hall]]

/-- C9: the request counter counts exactly the lines that parse and
are admitted by the rate limiter - the final count over any run of a
connection is the initial count plus the number of admitted requests,
independent of how requests are routed (an unknown type still counts);
an unparseable line is answered INVALID_REQUEST with the state
untouched, and a rejected request is answered RATE_LIMITED and is not
counted. -/
theorem c9_request_count_semantics :
    (∀ (route : Request → Response) (limit : Nat) (window : Int)
        (st : ConnState) (events : List (Option Request × Int)),
      (runConn route limit window st events).requestCount
        = st.requestCount + admittedCount limit window st.bucket events)
    ∧ (∀ (route : Request → Response) (limit : Nat) (window : Int)
        (st : ConnState) (now : Int),
      processLine route limit window st none now
        = (st, Response.err ErrCode.invalidRequest))
    ∧ (∀ (route : Request → Response) (limit : Nat) (window : Int)
        (st : ConnState) (req : Request) (now : Int),
      (processLine route limit window st (some req) now).2
        = if (rlAllow limit window st.bucket now).1 = true then route req
          else Response.err ErrCode.rateLimited) := by
  refine ⟨runConn_count, fun _ _ _ _ _ => rfl, ?_⟩
  intro route limit window st req now
  by_cases hall : (rlAllow limit window st.bucket now).1 = true
  · simp [processLine, hall]
  · simp [processLine, hall]

theorem handleSet_flush_or (c : config.Config) (a : Str) (en fo : Bool) :
    (handleSet c a en fo true true false).resp
        = Response.err ErrCode.internalError
    ∨ (handleSet c a en fo true true true).resp ≠ Response.ok := by
  unfold handleSet
  cases config.findHostByAlias c a with
  | none => exact Or.inr (by simp)
  | some host =>
    dsimp only
    split
    · exact Or.inr (by simp)
    · exact Or.inl rfl

theorem handleAdd_flush_or (c : config.Config) (d i a g : Str) (en : Bool) :
    (handleAdd c d i a g en true true false).resp
        = Response.err ErrCode.internalError
    ∨ (handleAdd c d i a g en true true true).resp ≠ Response.ok := by
  unfold handleAdd
  split
  · exact Or.inr (by simp)
  · split
    · exact Or.inr (by simp)
    · split
      · exact Or.inr (by simp)
      · split
        · exact Or.inr (by simp)
        · cases config.addHost c d i a g en with
          | none => exact Or.inr (by simp)
          | some c2 => exact Or.inl rfl

theorem handleDelete_flush_or (c : config.Config) (a : Str) :
    (handleDelete c a true true false).resp
        = Response.err ErrCode.internalError
    ∨ (handleDelete c a true true true).resp ≠ Response.ok := by
  unfold handleDelete
  split
  · exact Or.inr (by simp)
  · dsimp only
    split
    · exact Or.inl rfl
    · exact Or.inr (by simp)

theorem handlePreset_flush_or (c : config.Config) (n : Str) :
    (handlePreset c n true true false).resp
        = Response.err ErrCode.internalError
    ∨ (handlePreset c n true true true).resp ≠ Response.ok := by
  unfold handlePreset
  cases config.applyPreset c n with
  | none => exact Or.inr (by simp)
  | some c2 => exact Or.inl rfl

/-- C1 (counterexample): a set request whose configuration save and
host-file write succeed but whose resolver-cache flush fails is
answered with status error and code INTERNAL_ERROR, not with status
ok; the same request with a succeeding flush is answered ok, so the
difference is attributable to the flush alone. -/
theorem c1_claim_counterexample :
    (handleSet ⟨[⟨str "dev", [⟨str "a.com", str "1.2.3.4", str "a", false⟩]⟩], []⟩
        (str "a") true false true true false).resp
      = Response.err ErrCode.internalError
    ∧ (handleSet ⟨[⟨str "dev", [⟨str "a.com", str "1.2.3.4", str "a", false⟩]⟩], []⟩
        (str "a") true false true true true).resp
      = Response.ok := by
  decide

/-- C1 (amended): a resolver-cache flush failure after a successful
save and host-file write IS surfaced to the caller: sync returns the
flush error and the set, add, delete, sync and preset handlers answer
INTERNAL_ERROR in place of the ok they would return had the flush
succeeded. -/
theorem c1_flush_error_surfaced (c : config.Config) (a d i al g n : Str)
    (en fo : Bool) :
    handleSync true false = Response.err ErrCode.internalError
    ∧ ((handleSet c a en fo true true true).resp = Response.ok →
      (handleSet c a en fo true true false).resp
        = Response.err ErrCode.internalError)
    ∧ ((handleAdd c d i al g en true true true).resp = Response.ok →
      (handleAdd c d i al g en true true false).resp
        = Response.err ErrCode.internalError)
    ∧ ((handleDelete c a true true true).resp = Response.ok →
      (handleDelete c a true true false).resp
        = Response.err ErrCode.internalError)
    ∧ ((handlePreset c n true true true).resp = Response.ok →
      (handlePreset c n true true false).resp
        = Response.err ErrCode.internalError) :=
  ⟨rfl,
   fun h => (handleSet_flush_or c a en fo).resolve_right (fun hne => hne h),
   fun h => (handleAdd_flush_or c d i al g en).resolve_right (fun hne => hne h),
   fun h => (handleDelete_flush_or c a).resolve_right (fun hne => hne h),
   fun h => (handlePreset_flush_or c n).resolve_right (fun hne => hne h)⟩

theorem c1_flush_error_surfaced_witness :
    (handleSet ⟨[⟨str "dev", [⟨str "a.com", str "1.2.3.4", str "a", false⟩]⟩], []⟩
        (str "a") true false true true true).resp = Response.ok
    ∧ (handleSet ⟨[⟨str "dev", [⟨str "a.com", str "1.2.3.4", str "a", false⟩]⟩], []⟩
        (str "a") true false true true false).resp
      = Response.err ErrCode.internalError :=
  ⟨by decide,
   (c1_flush_error_surfaced
      ⟨[⟨str "dev", [⟨str "a.com", str "1.2.3.4", str "a", false⟩]⟩], []⟩
      (str "a") (str "d.com") (str "1.1.1.1") (str "x") (str "dev") (str "p")
      true false).2.1 (by decide)⟩

theorem mutationEpilogue_resp_cases (c2 : config.Config) (s w f : Bool) :
    (mutationEpilogue c2 s w f).resp = Response.ok
    ∨ (mutationEpilogue c2 s w f).resp = Response.err ErrCode.internalError := by
  unfold mutationEpilogue
  split
  · exact Or.inr rfl
  · split
    · exact Or.inr rfl
    · split
      · exact Or.inr rfl
      · exact Or.inl rfl

/-- C2 (counterexample): an add request whose domain bad_domain is
non-empty but fails the hostname grammar (and is not blocked) is
accepted: the handler answers ok and the configuration gains the
entry, instead of the INVALID_DOMAIN rejection the claim requires. -/
theorem c2_claim_counterexample :
    validateDomain (str "bad_domain") = false
    ∧ str "bad_domain" ≠ []
    ∧ (handleAdd ⟨[], []⟩ (str "bad_domain") (str "127.0.0.1") (str "x")
        (str "dev") true true true true).resp = Response.ok
    ∧ (handleAdd ⟨[], []⟩ (str "bad_domain") (str "127.0.0.1") (str "x")
        (str "dev") true true true true).cfg ≠ ⟨[], []⟩ := by
  decide

/-- C2 (amended): the add handler answers INVALID_DOMAIN exactly for
the empty domain, in which case nothing is mutated or written; a
non-empty domain is never checked against the hostname grammar (only
against the blocklist), so a grammatically invalid domain proceeds as
a valid one would. -/
theorem c2_invalid_domain_iff_empty (c : config.Config) (d i al g : Str)
    (en s w f : Bool) :
    ((handleAdd c d i al g en s w f).resp = Response.err ErrCode.invalidDomain
      ↔ d = [])
    ∧ (d = [] → handleAdd c d i al g en s w f
        = ⟨Response.err ErrCode.invalidDomain, c, false, false⟩) := by
  by_cases hd : d = []
  · subst hd
    have hr : handleAdd c [] i al g en s w f
        = ⟨Response.err ErrCode.invalidDomain, c, false, false⟩ := by
      unfold handleAdd
      rw [if_pos rfl]
    rw [hr]
    exact ⟨⟨fun _ => rfl, fun _ => rfl⟩, fun _ => rfl⟩
  · refine ⟨⟨fun h => ?_, fun h => absurd h hd⟩, fun h => absurd h hd⟩
    exfalso
    unfold handleAdd at h
    rw [if_neg hd] at h
    split at h
    · simp at h
    · split at h
      · simp at h
      · split at h
        · simp at h
        · cases hadd : config.addHost c d i al g en with
          | none =>
            rw [hadd] at h
            simp at h
          | some c2 =>
            rw [hadd] at h
            dsimp only at h
            rcases mutationEpilogue_resp_cases c2 s w f with he | he <;>
              rw [he] at h <;> simp at h

theorem c2_invalid_domain_iff_empty_witness :
    (handleAdd ⟨[], []⟩ [] (str "127.0.0.1") (str "x") (str "dev")
        true true true true).resp = Response.err ErrCode.invalidDomain :=
  ((c2_invalid_domain_iff_empty ⟨[], []⟩ [] (str "127.0.0.1") (str "x")
    (str "dev") true true true true).1).mpr rfl

/-- C4 (counterexample): with groups a and b present, renaming a to
the existing name b is answered with code NOT_FOUND (the handler maps
every RenameGroup failure to NOT_FOUND), not with the CONFLICT the
claim requires. -/
theorem c4_claim_counterexample :
    ((⟨[⟨str "a", []⟩, ⟨str "b", []⟩], []⟩ : config.Config).groups.map
        (·.name)).contains (str "b") = true
    ∧ (handleRenameGroup ⟨[⟨str "a", []⟩, ⟨str "b", []⟩], []⟩
        (str "a") (str "b") true).resp = Response.err ErrCode.notFound
    ∧ (handleRenameGroup ⟨[⟨str "a", []⟩, ⟨str "b", []⟩], []⟩
        (str "a") (str "b") true).resp ≠ Response.err ErrCode.conflict := by
  decide

/-- C4 (amended): for non-empty names, both RenameGroup failure modes
- the new name already taken as well as the old name missing - are
answered with code NOT_FOUND, and the rename handler never answers
CONFLICT. -/
theorem c4_rename_errors_answered_not_found (c : config.Config)
    (oldN newN : Str) (s : Bool) (h1 : oldN ≠ []) (h2 : newN ≠ []) :
    (∀ e, config.renameGroup c oldN newN = Except.error e →
      (handleRenameGroup c oldN newN s).resp = Response.err ErrCode.notFound)
    ∧ (handleRenameGroup c oldN newN s).resp ≠ Response.err ErrCode.conflict := by
  unfold handleRenameGroup
  split
  · rename_i hcond
    simp [h1, h2] at hcond
  · cases hre : config.renameGroup c oldN newN with
    | error e =>
      exact ⟨fun _ _ => rfl, by simp⟩
    | ok c2 =>
      refine ⟨fun e he => absurd he (by simp), ?_⟩
      dsimp only
      by_cases hs : s = false
      · rw [if_pos hs]
        simp
      · rw [if_neg hs]
        simp

theorem c4_rename_errors_answered_not_found_witness :
    (handleRenameGroup ⟨[⟨str "a", []⟩, ⟨str "b", []⟩], []⟩
        (str "a") (str "b") true).resp = Response.err ErrCode.notFound :=
  (c4_rename_errors_answered_not_found
      ⟨[⟨str "a", []⟩, ⟨str "b", []⟩], []⟩ (str "a") (str "b") true
      (by decide) (by decide)).1
    config.RenameErr.newNameExists rfl

/-- C8: every accepted mutation of the configuration store - add_host
with a supplied or auto-generated alias, update_host, delete_host,
set-enabled, the group and preset operations, and apply-preset -
preserves pairwise distinctness of the aliases across all groups. -/
theorem c8_alias_uniqueness (c : config.Config) (m : config.Mutation)
    (c2 : config.Config) (hN : (config.aliasesOf c.groups).Nodup)
    (h : config.applyMutation c m = some c2) :
    (config.aliasesOf c2.groups).Nodup :=
  config.aliasUniqueness_preserved c m c2 hN h

theorem c8_alias_uniqueness_witness :
    (config.aliasesOf
        (⟨[⟨str "dev", [⟨str "d.com", str "1.1.1.1", str "a", true⟩]⟩], []⟩
          : config.Config).groups).Nodup
    ∧ (config.aliasesOf (⟨[⟨str "dev", []⟩], []⟩ : config.Config).groups).Nodup :=
  ⟨by decide,
   c8_alias_uniqueness
    ⟨[⟨str "dev", [⟨str "d.com", str "1.1.1.1", str "a", true⟩]⟩], []⟩
    (config.Mutation.deleteHost (str "a"))
    ⟨[⟨str "dev", []⟩], []⟩ (by decide) (by decide)⟩

/-- C10: deleting the last remaining group succeeds and leaves zero
groups - the handler saves and reconciles the now-empty configuration
without resynthesizing a default group; the synthesized group named
default is created only by EnsureDefaultGroup, which runs at daemon
startup on a configuration with no groups. -/
theorem c10_delete_last_group (c : config.Config) (g : config.Group)
    (hc : c.groups = [g]) (hg : g.name ≠ []) :
    handleDeleteGroup c g.name true true true
      = ⟨Response.ok, ⟨[], c.presets⟩, true, true⟩
    ∧ config.ensureDefaultGroup ⟨[], c.presets⟩
      = ⟨[⟨str "default", []⟩], c.presets⟩ := by
  constructor
  · unfold handleDeleteGroup
    rw [if_neg hg]
    have hdel : config.deleteGroup c g.name = some ⟨[], c.presets⟩ := by
      unfold config.deleteGroup
      rw [hc]
      unfold config.deleteGroupIn
      rw [if_pos rfl]
      rfl
    rw [hdel]
    rfl
  · unfold config.ensureDefaultGroup
    rw [if_pos rfl]

theorem c10_delete_last_group_witness :
    handleDeleteGroup ⟨[⟨str "only", []⟩], []⟩ (str "only") true true true
      = ⟨Response.ok, ⟨[], []⟩, true, true⟩ :=
  (c10_delete_last_group ⟨[⟨str "only", []⟩], []⟩ ⟨str "only", []⟩
    rfl (by decide)).1
